import Mathlib

/-!
Verification of the buffered_io ring-buffer engines.

The development shallowly embeds the ring-buffer core shared by the four
engines of the repository:

* AsyncIOReadBuffer and SyncIOReadBuffer (consumer side: copy, paste,
  read, readUntil, findLengthTill),
* AsyncIOWriteBuffer (producer side: put, write, onWriteToInterface with
  its pending-request queue),
* SyncIOLazyWriteBuffer (put without the modulo on the head cursor,
  flush, write).

Bytes are modelled as Nat, the fixed storage as a List Nat of length
m_size, and the head/tail cursors and the tri-state last-operation marker
exactly as in the C++ sources.  The enum constructors COPY/PASTE/NONE
follow the read-buffer classes; in the write-buffer classes the same
three states are spelled WRITE/PUT/NONE (consumer marker WRITE maps to
COPY, producer marker PUT maps to PASTE) and the code is textually
identical up to that renaming.  External I/O primitives are oracles:
a pull is a function from a source state and a requested length to the
delivered bytes and the next source state; a sink response is the
accepted byte count for an offered segment.
-/

namespace BufIoSpec

/-- Tri-state last-operation marker of every ring buffer, from the enum
LastOperation of AsyncSmartBuffer.hpp.  COPY records a consumer-side
mutation (copy / WRITE / FLUSH), PASTE a producer-side one (paste / PUT),
NONE the freshly constructed state. -/
inductive LastOperation where
  | COPY
  | PASTE
  | NONE
deriving DecidableEq, Repr

/-- State of one ring buffer: the marker, the two cursors, m_size and the
owned storage (length m_size). -/
structure RingState where
  lastOperation : LastOperation
  tail : Nat
  head : Nat
  size : Nat
  buf : List Nat
deriving DecidableEq, Repr

/-- Freshly constructed buffer.  The constructors store the requested
size in m_size unchanged (only the malloc coerces 0 to 1), zero the two
cursors and set the marker to NONE. -/
def initState (size : Nat) : RingState :=
  ⟨LastOperation.NONE, 0, 0, size, List.replicate size 0⟩

/-- The occupancy oracle occupiedBytes shared by AsyncIOReadBuffer,
AsyncIOWriteBuffer, SyncIOReadBuffer and SyncIOLazyWriteBuffer: on
head==tail the producer marker (PASTE, spelled PUT in the write buffers)
means full, anything else means empty. -/
def occupiedBytes (s : RingState) : Nat :=
  if s.tail = s.head then
    if s.lastOperation = LastOperation.PASTE then s.size else 0
  else if s.tail < s.head then
    s.head - s.tail
  else
    s.size - (s.tail - s.head)

/-- The occupancy oracle of the AsyncIOWriteBuffer variant in the
unnamed draft source part_001: on head==tail it returns 0 exactly when
the marker is the consumer one (spelled WRITE there, COPY here) and
m_size otherwise, so the NONE state reports a full buffer. -/
def occupiedBytesWB1 (s : RingState) : Nat :=
  if s.tail = s.head then
    if s.lastOperation = LastOperation.COPY then 0 else s.size
  else if s.tail < s.head then
    s.head - s.tail
  else
    s.size - (s.tail - s.head)

/-- freeBytes() = m_size - occupiedBytes(). -/
def freeBytes (s : RingState) : Nat :=
  s.size - occupiedBytes s

/-- The capacity() accessor: returns m_size. -/
def capacity (s : RingState) : Nat :=
  s.size

/-- Overwrite of the storage segment starting at pos with the given
bytes: the model of one contiguous memcpy into the buffer. -/
def writeSeg (buf : List Nat) (pos : Nat) (data : List Nat) : List Nat :=
  buf.take pos ++ data ++ buf.drop (pos + data.length)

/-- Bytes emitted by the private copy(out, len) of the read buffers (and
the identical code in both async classes): len bytes starting at the
tail, split at the wrap boundary in case 3.  The caller guarantees
len <= occupiedBytes. -/
def copyOut (s : RingState) (len : Nat) : List Nat :=
  if len = 0 then []
  else if s.tail < s.head ∨ len ≤ s.size - s.tail then
    (s.buf.drop s.tail).take len
  else
    (s.buf.drop s.tail).take (s.size - s.tail)
      ++ s.buf.take (len - (s.size - s.tail))

/-- Cursor effect of copy(out, len) before the final drain check: the
tail advances (modulo m_size in cases 1 and 2, to the wrapped remainder
in case 3) and the marker becomes COPY. -/
def copyPre (s : RingState) (len : Nat) : RingState :=
  if len = 0 then s
  else if s.tail < s.head ∨ len ≤ s.size - s.tail then
    ⟨LastOperation.COPY, (s.tail + len) % s.size, s.head, s.size, s.buf⟩
  else
    ⟨LastOperation.COPY, len - (s.size - s.tail), s.head, s.size, s.buf⟩

/-- Full state effect of copy(out, len): the cursor update followed by
the drain check that collapses both cursors to 0 once the buffer is
empty. -/
def copyState (s : RingState) (len : Nat) : RingState :=
  if len = 0 then s
  else if occupiedBytes (copyPre s len) = 0 then
    { copyPre s len with head := 0, tail := 0 }
  else copyPre s len

/-- The private copy(out, len) of the read buffers: emitted bytes plus
the state update. -/
def copy (s : RingState) (len : Nat) : List Nat × RingState :=
  (copyOut s len, copyState s len)

/-- The private put(outData, len) of AsyncIOWriteBuffer: mirror of copy
at the head, with the modulo applied to the advanced head cursor, and
marker PUT (producer marker, PASTE here).  The caller guarantees
len <= freeBytes. -/
def put (s : RingState) (data : List Nat) : RingState :=
  if data.length = 0 then s
  else
    let s1 :=
      if s.head < s.tail ∨ data.length ≤ s.size - s.head then
        { s with buf := writeSeg s.buf s.head data,
                 head := (s.head + data.length) % s.size }
      else
        let l1 := s.size - s.head
        { s with buf := writeSeg (writeSeg s.buf s.head (data.take l1)) 0 (data.drop l1),
                 head := data.length - l1 }
    { s1 with lastOperation := LastOperation.PASTE }

/-- The private put(outData, len) of SyncIOLazyWriteBuffer: identical to
the async one except that in the contiguous case the head cursor is
advanced without the modulo (m_head += len), so the head may come to
rest exactly at m_size. -/
def putLazy (s : RingState) (data : List Nat) : RingState :=
  if data.length = 0 then s
  else
    let s1 :=
      if s.head < s.tail ∨ data.length ≤ s.size - s.head then
        { s with buf := writeSeg s.buf s.head data,
                 head := s.head + data.length }
      else
        let l1 := s.size - s.head
        { s with buf := writeSeg (writeSeg s.buf s.head (data.take l1)) 0 (data.drop l1),
                 head := data.length - l1 }
    { s1 with lastOperation := LastOperation.PASTE }

/-- One successful filling of the contiguous run at the head, as
performed by pasteFromInterface of SyncIOReadBuffer after the pull, or
by the asynchronous pull plus the head update of onReadFromInterface:
the delivered bytes land at the head, the head advances modulo m_size
and the marker becomes PASTE.  Delivering zero bytes leaves the state
untouched. -/
def pasteFill (s : RingState) (bytes : List Nat) : RingState :=
  if bytes.length = 0 then s
  else
    { s with buf := writeSeg s.buf s.head bytes,
             head := (s.head + bytes.length) % s.size,
             lastOperation := LastOperation.PASTE }

/-- The tail update performed by onWriteToInterface of
AsyncIOWriteBuffer after the sink confirmed k bytes: the tail advances
by k modulo m_size, the marker becomes WRITE (the consumer marker, COPY
here) and the cursors collapse to 0 once the buffer drains. -/
def flushAdvW (s : RingState) (k : Nat) : RingState :=
  if occupiedBytes { s with tail := (s.tail + k) % s.size, lastOperation := LastOperation.COPY } = 0 then
    { s with tail := 0, head := 0, lastOperation := LastOperation.COPY }
  else
    { s with tail := (s.tail + k) % s.size, lastOperation := LastOperation.COPY }

/-- Occupied bytes of the ring read in FIFO order, starting at the tail
and wrapping past the end of the storage. -/
def contents (s : RingState) : List Nat :=
  ((s.buf.drop s.tail) ++ (s.buf.take s.tail)).take (occupiedBytes s)

/-- Structural well-formedness kept by the engines whose cursor updates
all go through the modulo: both cursors strictly below m_size and the
storage of length m_size. -/
def InvM (s : RingState) : Prop :=
  s.head < s.size ∧ s.tail < s.size ∧ s.buf.length = s.size

/-- Weak well-formedness satisfied by every engine, including the lazy
writer whose put may park the head exactly at m_size: both cursors at
most m_size and the storage of length m_size. -/
def InvW (s : RingState) : Prop :=
  s.head ≤ s.size ∧ s.tail ≤ s.size ∧ s.buf.length = s.size

theorem occupiedBytes_le_size {s : RingState} (h : InvW s) :
    occupiedBytes s ≤ s.size := by
  rcases h with ⟨h1, h2, -⟩
  unfold occupiedBytes
  split
  · split <;> omega
  · split <;> omega

theorem invM_invW {s : RingState} (h : InvM s) : InvW s := by
  rcases h with ⟨h1, h2, h3⟩
  exact ⟨Nat.le_of_lt h1, Nat.le_of_lt h2, h3⟩

theorem initState_invM {n : Nat} (h : 1 ≤ n) : InvM (initState n) := by
  refine ⟨h, h, ?_⟩
  simp [initState]

theorem initState_invW (n : Nat) : InvW (initState n) := by
  refine ⟨Nat.zero_le n, Nat.zero_le n, ?_⟩
  simp [initState]

theorem occupiedBytes_initState (n : Nat) : occupiedBytes (initState n) = 0 := by
  simp [initState, occupiedBytes]

theorem contents_length {s : RingState} (h : InvW s) :
    (contents s).length = occupiedBytes s := by
  have hocc := occupiedBytes_le_size h
  rcases h with ⟨h1, h2, h3⟩
  unfold contents
  rw [List.length_take, List.length_append, List.length_drop, List.length_take]
  omega

end BufIoSpec

namespace BufIoSpec

theorem writeSeg_length {L d : List Nat} {pos : Nat}
    (h : pos + d.length ≤ L.length) :
    (writeSeg L pos d).length = L.length := by
  simp [writeSeg]
  omega

theorem writeSeg_drop_ge {L d : List Nat} {q k : Nat}
    (hpos : q ≤ L.length) (h : q + d.length ≤ k) :
    (writeSeg L q d).drop k = L.drop k := by
  unfold writeSeg
  rw [List.drop_append_eq_append_drop, List.drop_append_eq_append_drop]
  rw [List.drop_of_length_le (by simp; omega)]
  rw [List.drop_of_length_le (by simp; omega)]
  rw [List.drop_drop]
  simp
  congr 1
  omega

theorem writeSeg_take_le {L d : List Nat} {pos k : Nat}
    (hpos : pos ≤ L.length) (h : k ≤ pos) :
    (writeSeg L pos d).take k = L.take k := by
  unfold writeSeg
  rw [List.append_assoc, List.take_append_eq_append_take, List.take_take]
  have h1 : (L.take pos).length = pos := by simp [hpos]
  rw [h1]
  have h2 : k - pos = 0 := by omega
  have h3 : min k pos = k := by omega
  rw [h2, h3]
  simp

theorem writeSeg_window {L d : List Nat} {pos : Nat}
    (h : pos ≤ L.length) :
    ((writeSeg L pos d).drop pos).take d.length = d := by
  unfold writeSeg
  rw [List.append_assoc, List.drop_append_eq_append_drop]
  have h1 : (L.take pos).length = pos := by simp [h]
  rw [h1]
  rw [List.drop_of_length_le (Nat.le_of_eq h1), Nat.sub_self, List.drop_zero]
  rw [List.nil_append, List.take_append_eq_append_take, Nat.sub_self]
  simp

theorem writeSeg_take_window {L d : List Nat} {pos : Nat}
    (h : pos ≤ L.length) :
    (writeSeg L pos d).take (pos + d.length) = L.take pos ++ d := by
  unfold writeSeg
  rw [List.append_assoc, List.take_append_eq_append_take]
  have h1 : (L.take pos).length = pos := by simp [h]
  rw [List.take_take, h1]
  have h2 : min (pos + d.length) pos = pos := by omega
  rw [h2]
  congr 1
  rw [List.take_append_eq_append_take]
  have h3 : pos + d.length - pos = d.length := by omega
  rw [h3, List.take_length, Nat.sub_self]
  simp

theorem writeSeg_drop_at {L d : List Nat} {pos : Nat}
    (h : pos ≤ L.length) :
    (writeSeg L pos d).drop pos = d ++ L.drop (pos + d.length) := by
  unfold writeSeg
  rw [List.append_assoc, List.drop_append_eq_append_drop]
  have h1 : (L.take pos).length = pos := by simp [h]
  rw [h1, List.drop_of_length_le (Nat.le_of_eq h1), Nat.sub_self, List.drop_zero]
  simp

theorem writeSeg_drop_le {L d : List Nat} {q k : Nat}
    (hk : k ≤ q) (h : q ≤ L.length) :
    (writeSeg L q d).drop k = (L.drop k).take (q - k) ++ d ++ L.drop (q + d.length) := by
  unfold writeSeg
  rw [List.append_assoc, List.drop_append_eq_append_drop]
  have h1 : (L.take q).length = q := by simp [h]
  rw [h1]
  have h2 : k - q = 0 := by omega
  rw [h2, List.drop_zero, List.drop_take]
  rw [List.append_assoc]

theorem contents_of_lt {s : RingState}
    (hL : s.buf.length = s.size) (hh : s.head ≤ s.size) (h : s.tail < s.head) :
    contents s = (s.buf.drop s.tail).take (s.head - s.tail) := by
  have hne : s.tail ≠ s.head := Nat.ne_of_lt h
  unfold contents occupiedBytes
  rw [if_neg hne, if_pos h, List.take_append_eq_append_take]
  have h1 : (s.buf.drop s.tail).length = s.size - s.tail := by simp [hL]
  rw [h1]
  have h2 : s.head - s.tail - (s.size - s.tail) = 0 := by omega
  rw [h2]
  simp

theorem contents_of_gt {s : RingState}
    (hL : s.buf.length = s.size) (ht : s.tail ≤ s.size) (h : s.head < s.tail) :
    contents s = s.buf.drop s.tail ++ s.buf.take s.head := by
  have hne : s.tail ≠ s.head := (Nat.ne_of_lt h).symm
  have hnl : ¬ s.tail < s.head := by omega
  unfold contents occupiedBytes
  rw [if_neg hne, if_neg hnl, List.take_append_eq_append_take]
  have h1 : (s.buf.drop s.tail).length = s.size - s.tail := by simp [hL]
  rw [List.take_of_length_le (by rw [h1]; omega), h1, List.take_take]
  congr 2
  omega

theorem contents_of_empty {s : RingState}
    (h : s.tail = s.head) (h2 : s.lastOperation ≠ LastOperation.PASTE) :
    contents s = [] := by
  unfold contents occupiedBytes
  rw [if_pos h, if_neg h2]
  simp

theorem contents_of_full {s : RingState}
    (hL : s.buf.length = s.size) (ht : s.tail ≤ s.size)
    (h : s.tail = s.head) (h2 : s.lastOperation = LastOperation.PASTE) :
    contents s = s.buf.drop s.tail ++ s.buf.take s.tail := by
  unfold contents occupiedBytes
  rw [if_pos h, if_pos h2]
  refine List.take_of_length_le ?_
  simp [hL]
  omega

/-- Result of one contiguous fill of d bytes at the head followed by the
modular head advance and the PASTE marker: the common core of put
(case 1), of pasteFromInterface and of the asynchronous refill step. -/
def contigFill (s : RingState) (d : List Nat) : RingState :=
  ⟨LastOperation.PASTE, s.tail, (s.head + d.length) % s.size, s.size, writeSeg s.buf s.head d⟩

theorem occ_lt {s : RingState} (h : s.tail < s.head) :
    occupiedBytes s = s.head - s.tail := by
  unfold occupiedBytes
  rw [if_neg (Nat.ne_of_lt h), if_pos h]

theorem occ_gt {s : RingState} (h : s.head < s.tail) :
    occupiedBytes s = s.size - (s.tail - s.head) := by
  unfold occupiedBytes
  rw [if_neg (Ne.symm (Nat.ne_of_lt h)), if_neg (by omega)]

theorem occ_eq_paste {s : RingState} (h : s.tail = s.head)
    (hp : s.lastOperation = LastOperation.PASTE) :
    occupiedBytes s = s.size := by
  unfold occupiedBytes
  rw [if_pos h, if_pos hp]

theorem occ_eq_other {s : RingState} (h : s.tail = s.head)
    (hp : s.lastOperation ≠ LastOperation.PASTE) :
    occupiedBytes s = 0 := by
  unfold occupiedBytes
  rw [if_pos h, if_neg hp]

theorem occ_notfull_marker {s : RingState} (h : s.tail = s.head)
    (hocc : occupiedBytes s < s.size) :
    occupiedBytes s = 0 := by
  rcases hcase : s.lastOperation with _ | _ | _
  · exact occ_eq_other h (by rw [hcase]; intro hc; cases hc)
  · rw [occ_eq_paste h hcase] at hocc
    omega
  · exact occ_eq_other h (by rw [hcase]; intro hc; cases hc)

theorem contigFill_occ {s : RingState} {d : List Nat}
    (hInv : InvM s) (h1 : 1 ≤ d.length) (hfit : s.head + d.length ≤ s.size)
    (hfree : occupiedBytes s + d.length ≤ s.size) :
    occupiedBytes (contigFill s d) = occupiedBytes s + d.length := by
  obtain ⟨hh, ht, hL⟩ := hInv
  have hproj : (contigFill s d).tail = s.tail ∧
      (contigFill s d).head = (s.head + d.length) % s.size ∧
      (contigFill s d).size = s.size ∧
      (contigFill s d).lastOperation = LastOperation.PASTE := by
    refine ⟨rfl, rfl, rfl, rfl⟩
  obtain ⟨hpt, hph, hps, hpl⟩ := hproj
  rcases Nat.lt_trichotomy s.tail s.head with hth | hth | hth
  · have hos : occupiedBytes s = s.head - s.tail := occ_lt hth
    rcases Nat.lt_or_ge (s.head + d.length) s.size with hsm | hsm
    · have hmod : (s.head + d.length) % s.size = s.head + d.length :=
        Nat.mod_eq_of_lt hsm
      rw [occ_lt (s := contigFill s d) (by rw [hpt, hph, hmod]; omega)]
      rw [hpt, hph, hmod, hos]
      omega
    · have hsz : s.head + d.length = s.size := by omega
      have hmod : (s.head + d.length) % s.size = 0 := by rw [hsz, Nat.mod_self]
      rcases Nat.eq_zero_or_pos s.tail with ht0 | ht0
      · rw [occ_eq_paste (s := contigFill s d) (by rw [hpt, hph, hmod, ht0]) hpl]
        rw [hps, hos]
        omega
      · rw [occ_gt (s := contigFill s d) (by rw [hpt, hph, hmod]; omega)]
        rw [hpt, hph, hps, hmod, hos]
        omega
  · have hos : occupiedBytes s = 0 :=
      occ_notfull_marker hth (by omega)
    rcases Nat.lt_or_ge (s.head + d.length) s.size with hsm | hsm
    · have hmod : (s.head + d.length) % s.size = s.head + d.length :=
        Nat.mod_eq_of_lt hsm
      rw [occ_lt (s := contigFill s d) (by rw [hpt, hph, hmod]; omega)]
      rw [hpt, hph, hmod, hos]
      omega
    · have hsz : s.head + d.length = s.size := by omega
      have hmod : (s.head + d.length) % s.size = 0 := by rw [hsz, Nat.mod_self]
      rcases Nat.eq_zero_or_pos s.tail with ht0 | ht0
      · rw [occ_eq_paste (s := contigFill s d) (by rw [hpt, hph, hmod, ht0]) hpl]
        rw [hps, hos]
        omega
      · rw [occ_gt (s := contigFill s d) (by rw [hpt, hph, hmod]; omega)]
        rw [hpt, hph, hps, hmod, hos]
        omega
  · have hos : occupiedBytes s = s.size - (s.tail - s.head) := occ_gt hth
    have hle2 : s.head + d.length ≤ s.tail := by omega
    have hmod : (s.head + d.length) % s.size = s.head + d.length :=
      Nat.mod_eq_of_lt (by omega)
    rcases Nat.lt_or_ge (s.head + d.length) s.tail with hc | hc
    · rw [occ_gt (s := contigFill s d) (by rw [hpt, hph, hmod]; omega)]
      rw [hpt, hph, hps, hmod, hos]
      omega
    · have hceq : s.tail = s.head + d.length := by omega
      rw [occ_eq_paste (s := contigFill s d) (by rw [hpt, hph, hmod, hceq]) hpl]
      rw [hps, hos]
      omega

theorem contigFill_invM {s : RingState} {d : List Nat}
    (hInv : InvM s) (hfit : s.head + d.length ≤ s.size) :
    InvM (contigFill s d) := by
  obtain ⟨hh, ht, hL⟩ := hInv
  refine ⟨?_, ht, ?_⟩
  · show (s.head + d.length) % s.size < s.size
    exact Nat.mod_lt _ (by omega)
  · show (writeSeg s.buf s.head d).length = s.size
    rw [writeSeg_length (by omega)]
    exact hL

theorem contents_nil {s : RingState} (h : occupiedBytes s = 0) :
    contents s = [] := by
  unfold contents
  rw [h]
  simp

theorem contigFill_contents {s : RingState} {d : List Nat}
    (hInv : InvM s) (h1 : 1 ≤ d.length) (hfit : s.head + d.length ≤ s.size)
    (hfree : occupiedBytes s + d.length ≤ s.size) :
    contents (contigFill s d) = contents s ++ d := by
  obtain ⟨hh, ht, hL⟩ := hInv
  have hL2 : (writeSeg s.buf s.head d).length = s.size := by
    rw [writeSeg_length (by omega)]
    exact hL
  rcases Nat.lt_trichotomy s.tail s.head with hth | hth | hth
  · have hcs : contents s = (s.buf.drop s.tail).take (s.head - s.tail) :=
      contents_of_lt hL (Nat.le_of_lt hh) hth
    have hos : occupiedBytes s = s.head - s.tail := occ_lt hth
    rcases Nat.lt_or_ge (s.head + d.length) s.size with hsm | hsm
    · have hmod : (s.head + d.length) % s.size = s.head + d.length :=
        Nat.mod_eq_of_lt hsm
      have hrw : contents (contigFill s d) =
          ((writeSeg s.buf s.head d).drop s.tail).take
            ((s.head + d.length) % s.size - s.tail) :=
        contents_of_lt hL2
          (Nat.le_of_lt (Nat.mod_lt _ (by omega)))
          (by show s.tail < (s.head + d.length) % s.size; rw [hmod]; omega)
      rw [hrw, hmod, writeSeg_drop_le (by omega) (by omega)]
      rw [List.take_append_eq_append_take]
      have hAlen : ((s.buf.drop s.tail).take (s.head - s.tail)).length
          = s.head - s.tail := by
        rw [List.length_take, List.length_drop, hL]
        omega
      have hABlen : ((s.buf.drop s.tail).take (s.head - s.tail) ++ d).length
          = s.head - s.tail + d.length := by
        rw [List.length_append, hAlen]
      rw [List.take_of_length_le (by rw [hABlen]; omega)]
      have hz : s.head + d.length - s.tail
          - ((s.buf.drop s.tail).take (s.head - s.tail) ++ d).length = 0 := by
        rw [hABlen]
        omega
      rw [hz]
      rw [hcs]
      simp
    · have hsz : s.head + d.length = s.size := by omega
      have hmod : (s.head + d.length) % s.size = 0 := by rw [hsz, Nat.mod_self]
      rcases Nat.eq_zero_or_pos s.tail with ht0 | ht0
      · have hrw : contents (contigFill s d) =
            (writeSeg s.buf s.head d).drop s.tail
              ++ (writeSeg s.buf s.head d).take s.tail :=
          contents_of_full hL2 (Nat.le_of_lt ht)
            (by show s.tail = (s.head + d.length) % s.size; rw [hmod, ht0]) rfl
        rw [hrw, ht0]
        simp only [List.drop_zero, List.take_zero, List.append_nil]
        unfold writeSeg
        rw [List.drop_of_length_le (show s.buf.length ≤ s.head + d.length by rw [hL]; omega)]
        rw [hcs, ht0]
        simp
      · have hrw : contents (contigFill s d) =
            (writeSeg s.buf s.head d).drop s.tail
              ++ (writeSeg s.buf s.head d).take ((s.head + d.length) % s.size) :=
          contents_of_gt hL2 (Nat.le_of_lt ht)
            (by show (s.head + d.length) % s.size < s.tail; rw [hmod]; omega)
        rw [hrw, hmod]
        simp only [List.take_zero, List.append_nil]
        rw [writeSeg_drop_le (L := s.buf) (d := d) (q := s.head) (k := s.tail)
          (by omega) (by omega)]
        rw [List.drop_of_length_le (show s.buf.length ≤ s.head + d.length by rw [hL]; omega)]
        rw [hcs]
        simp
  · have hcs : contents s = [] :=
      contents_nil (occ_notfull_marker hth (by omega))
    have hos : occupiedBytes s = 0 := occ_notfull_marker hth (by omega)
    rcases Nat.lt_or_ge (s.head + d.length) s.size with hsm | hsm
    · have hmod : (s.head + d.length) % s.size = s.head + d.length :=
        Nat.mod_eq_of_lt hsm
      have hrw : contents (contigFill s d) =
          ((writeSeg s.buf s.head d).drop s.tail).take
            ((s.head + d.length) % s.size - s.tail) :=
        contents_of_lt hL2
          (Nat.le_of_lt (Nat.mod_lt _ (by omega)))
          (by show s.tail < (s.head + d.length) % s.size; rw [hmod]; omega)
      rw [hrw, hmod, hth]
      have hidx : s.head + d.length - s.head = d.length := by omega
      rw [hidx, writeSeg_window (by omega), hcs]
      simp
    · have hsz : s.head + d.length = s.size := by omega
      have hmod : (s.head + d.length) % s.size = 0 := by rw [hsz, Nat.mod_self]
      rcases Nat.eq_zero_or_pos s.tail with ht0 | ht0
      · have hh0 : s.head = 0 := by omega
        have hrw : contents (contigFill s d) =
            (writeSeg s.buf s.head d).drop s.tail
              ++ (writeSeg s.buf s.head d).take s.tail :=
          contents_of_full hL2 (Nat.le_of_lt ht)
            (by show s.tail = (s.head + d.length) % s.size; rw [hmod, ht0]) rfl
        rw [hrw, ht0]
        simp only [List.drop_zero, List.take_zero, List.append_nil]
        unfold writeSeg
        rw [List.drop_of_length_le (show s.buf.length ≤ s.head + d.length by rw [hL]; omega)]
        rw [hh0, hcs]
        simp
      · have hrw : contents (contigFill s d) =
            (writeSeg s.buf s.head d).drop s.tail
              ++ (writeSeg s.buf s.head d).take ((s.head + d.length) % s.size) :=
          contents_of_gt hL2 (Nat.le_of_lt ht)
            (by show (s.head + d.length) % s.size < s.tail; rw [hmod]; omega)
        rw [hrw, hmod]
        simp only [List.take_zero, List.append_nil]
        rw [hth, writeSeg_drop_at (by omega)]
        rw [List.drop_of_length_le (show s.buf.length ≤ s.head + d.length by rw [hL]; omega)]
        rw [hcs]
        simp
  · have hcs : contents s = s.buf.drop s.tail ++ s.buf.take s.head :=
      contents_of_gt hL (Nat.le_of_lt ht) hth
    have hos : occupiedBytes s = s.size - (s.tail - s.head) := occ_gt hth
    have hle2 : s.head + d.length ≤ s.tail := by omega
    have hmod : (s.head + d.length) % s.size = s.head + d.length :=
      Nat.mod_eq_of_lt (by omega)
    rcases Nat.lt_or_ge (s.head + d.length) s.tail with hc | hc
    · have hrw : contents (contigFill s d) =
          (writeSeg s.buf s.head d).drop s.tail
            ++ (writeSeg s.buf s.head d).take ((s.head + d.length) % s.size) :=
        contents_of_gt hL2 (Nat.le_of_lt ht)
          (by show (s.head + d.length) % s.size < s.tail; rw [hmod]; omega)
      rw [hrw, hmod]
      rw [writeSeg_drop_ge (L := s.buf) (d := d) (q := s.head)
        (k := s.tail) (by omega) (by omega)]
      rw [writeSeg_take_window (by omega)]
      rw [hcs]
      rw [List.append_assoc]
    · have hceq : s.tail = s.head + d.length := by omega
      have hrw : contents (contigFill s d) =
          (writeSeg s.buf s.head d).drop s.tail
            ++ (writeSeg s.buf s.head d).take s.tail :=
        contents_of_full hL2 (Nat.le_of_lt ht)
          (by show s.tail = (s.head + d.length) % s.size; rw [hmod, hceq]) rfl
      rw [hrw, hceq]
      rw [writeSeg_drop_ge (L := s.buf) (d := d) (q := s.head)
        (k := s.head + d.length) (by omega) (by omega)]
      rw [writeSeg_take_window (by omega)]
      rw [hcs, hceq, List.append_assoc]

theorem put_eq_case1 {s : RingState} {d : List Nat} (hd : d.length ≠ 0)
    (hg : s.head < s.tail ∨ d.length ≤ s.size - s.head) :
    put s d = contigFill s d := by
  unfold put contigFill
  rw [if_neg hd, if_pos hg]

theorem occ_plus_len_le {s : RingState} (hInv : InvM s) {d : List Nat}
    (hle : d.length ≤ freeBytes s) :
    occupiedBytes s + d.length ≤ s.size := by
  have h2 := occupiedBytes_le_size (invM_invW hInv)
  unfold freeBytes at hle
  omega

theorem put_eq_case3 {s : RingState} {d : List Nat}
    (hInv : InvM s) (hle : d.length ≤ freeBytes s) (hd : d.length ≠ 0)
    (hg : ¬(s.head < s.tail ∨ d.length ≤ s.size - s.head)) :
    put s d = contigFill (contigFill s (d.take (s.size - s.head)))
      (d.drop (s.size - s.head)) := by
  have hfree2 := occ_plus_len_le hInv hle
  push_neg at hg
  obtain ⟨hg1, hg2⟩ := hg
  obtain ⟨hh, ht, hL⟩ := hInv
  have hth : s.tail ≤ s.head := by omega
  have hocc_ge : s.head - s.tail ≤ occupiedBytes s := by
    rcases Nat.eq_or_lt_of_le hth with he | hlt
    · omega
    · rw [occ_lt hlt]
  have hl2 : d.length - (s.size - s.head) ≤ s.tail := by omega
  have hA_head : (s.head + (d.take (s.size - s.head)).length) % s.size = 0 := by
    rw [List.length_take]
    have hx : s.head + min (s.size - s.head) d.length = s.size := by omega
    rw [hx, Nat.mod_self]
  unfold put contigFill
  rw [if_neg hd, if_neg (by push_neg; exact ⟨hg1, hg2⟩)]
  simp only [hA_head]
  have hlen2 : (d.drop (s.size - s.head)).length = d.length - (s.size - s.head) := by
    rw [List.length_drop]
  rw [hlen2]
  have hmod2 : (0 + (d.length - (s.size - s.head))) % s.size
      = d.length - (s.size - s.head) := by
    rw [Nat.zero_add]
    exact Nat.mod_eq_of_lt (by omega)
  rw [hmod2]

theorem put_sim {s : RingState} {d : List Nat}
    (hInv : InvM s) (hle : d.length ≤ freeBytes s) :
    InvM (put s d) ∧ contents (put s d) = contents s ++ d ∧
    occupiedBytes (put s d) = occupiedBytes s + d.length ∧
    (put s d).size = s.size ∧ (put s d).tail = s.tail := by
  have hfree2 := occ_plus_len_le hInv hle
  by_cases hd : d.length = 0
  · have hdnil : d = [] := List.length_eq_zero.mp hd
    subst hdnil
    simpa [put] using hInv
  · have h1 : 1 ≤ d.length := by omega
    obtain ⟨hh, ht, hL⟩ := hInv
    by_cases hg : s.head < s.tail ∨ d.length ≤ s.size - s.head
    · have hfit : s.head + d.length ≤ s.size := by
        rcases hg with hg | hg
        · have hos : occupiedBytes s = s.size - (s.tail - s.head) := occ_gt hg
          omega
        · omega
      rw [put_eq_case1 hd hg]
      exact ⟨contigFill_invM ⟨hh, ht, hL⟩ hfit,
        contigFill_contents ⟨hh, ht, hL⟩ h1 hfit hfree2,
        contigFill_occ ⟨hh, ht, hL⟩ h1 hfit hfree2, rfl, rfl⟩
    · rw [put_eq_case3 ⟨hh, ht, hL⟩ hle hd hg]
      push_neg at hg
      obtain ⟨hg1, hg2⟩ := hg
      have hlen1 : (d.take (s.size - s.head)).length = s.size - s.head := by
        rw [List.length_take]
        omega
      have hlen2 : (d.drop (s.size - s.head)).length
          = d.length - (s.size - s.head) := by
        rw [List.length_drop]
      have h1a : 1 ≤ (d.take (s.size - s.head)).length := by omega
      have hfitA : s.head + (d.take (s.size - s.head)).length ≤ s.size := by omega
      have hfreeA : occupiedBytes s + (d.take (s.size - s.head)).length ≤ s.size := by
        omega
      have hA_inv := contigFill_invM ⟨hh, ht, hL⟩ hfitA
      have hA_contents := contigFill_contents ⟨hh, ht, hL⟩ h1a hfitA hfreeA
      have hA_occ := contigFill_occ ⟨hh, ht, hL⟩ h1a hfitA hfreeA
      have hA_head : (contigFill s (d.take (s.size - s.head))).head = 0 := by
        show (s.head + (d.take (s.size - s.head)).length) % s.size = 0
        rw [hlen1]
        have hx : s.head + (s.size - s.head) = s.size := by omega
        rw [hx, Nat.mod_self]
      have hA_size : (contigFill s (d.take (s.size - s.head))).size = s.size := rfl
      have hA_tail : (contigFill s (d.take (s.size - s.head))).tail = s.tail := rfl
      have h1b : 1 ≤ (d.drop (s.size - s.head)).length := by
        rw [hlen2]
        have hocc_ge : s.head - s.tail ≤ occupiedBytes s := by
          rcases Nat.eq_or_lt_of_le (show s.tail ≤ s.head by omega) with he | hlt
          · omega
          · rw [occ_lt hlt]
        omega
      have hfitB : (contigFill s (d.take (s.size - s.head))).head
          + (d.drop (s.size - s.head)).length
          ≤ (contigFill s (d.take (s.size - s.head))).size := by
        rw [hA_head, hA_size, hlen2]
        omega
      have hfreeB : occupiedBytes (contigFill s (d.take (s.size - s.head)))
          + (d.drop (s.size - s.head)).length
          ≤ (contigFill s (d.take (s.size - s.head))).size := by
        rw [hA_occ, hA_size, hlen1, hlen2]
        omega
      have hB_inv := contigFill_invM hA_inv hfitB
      have hB_contents := contigFill_contents hA_inv h1b hfitB hfreeB
      have hB_occ := contigFill_occ hA_inv h1b hfitB hfreeB
      refine ⟨hB_inv, ?_, ?_, rfl, rfl⟩
      · rw [hB_contents, hA_contents, List.append_assoc, List.take_append_drop]
      · rw [hB_occ, hA_occ, hlen1, hlen2]
        omega

theorem occ_char (s : RingState) :
    (s.tail < s.head ∧ occupiedBytes s = s.head - s.tail) ∨
    (s.tail = s.head ∧ (occupiedBytes s = 0 ∨ occupiedBytes s = s.size)) ∨
    (s.head < s.tail ∧ occupiedBytes s = s.size - (s.tail - s.head)) := by
  rcases Nat.lt_trichotomy s.tail s.head with hth | hth | hth
  · exact Or.inl ⟨hth, occ_lt hth⟩
  · refine Or.inr (Or.inl ⟨hth, ?_⟩)
    by_cases hmk : s.lastOperation = LastOperation.PASTE
    · exact Or.inr (occ_eq_paste hth hmk)
    · exact Or.inl (occ_eq_other hth hmk)
  · exact Or.inr (Or.inr ⟨hth, occ_gt hth⟩)

theorem contents_getElem {s : RingState} (hW : InvW s) {i : Nat}
    (hi : i < occupiedBytes s) :
    (contents s)[i]? = s.buf[(s.tail + i) % s.size]? := by
  obtain ⟨hh, ht, hL⟩ := hW
  have hoccle := occupiedBytes_le_size ⟨hh, ht, hL⟩
  unfold contents
  rw [List.getElem?_take_of_lt hi]
  rcases Nat.lt_or_ge i (s.size - s.tail) with hcase | hcase
  · rw [List.getElem?_append_left (by simp [hL]; omega)]
    rw [List.getElem?_drop]
    have hm : (s.tail + i) % s.size = s.tail + i := Nat.mod_eq_of_lt (by omega)
    rw [hm]
  · rw [List.getElem?_append_right (by simp [hL]; omega)]
    have hlen : (s.buf.drop s.tail).length = s.size - s.tail := by simp [hL]
    rw [hlen]
    rw [List.getElem?_take_of_lt (show i - (s.size - s.tail) < s.tail by omega)]
    have hm : (s.tail + i) % s.size = i - (s.size - s.tail) := by
      rw [Nat.mod_eq_sub_mod (by omega), Nat.mod_eq_of_lt (by omega)]
      omega
    rw [hm]

theorem copyPre_fields {s : RingState} {n : Nat} (hInv : InvM s)
    (hn : n ≠ 0) (hle : n ≤ occupiedBytes s) :
    (copyPre s n).tail = (s.tail + n) % s.size ∧
    (copyPre s n).head = s.head ∧
    (copyPre s n).size = s.size ∧
    (copyPre s n).buf = s.buf ∧
    (copyPre s n).lastOperation = LastOperation.COPY := by
  obtain ⟨hh, ht, hL⟩ := hInv
  have hoccle := occupiedBytes_le_size ⟨Nat.le_of_lt hh, Nat.le_of_lt ht, hL⟩
  unfold copyPre
  rw [if_neg hn]
  split_ifs with hg
  · exact ⟨rfl, rfl, rfl, rfl, rfl⟩
  · refine ⟨?_, rfl, rfl, rfl, rfl⟩
    show n - (s.size - s.tail) = (s.tail + n) % s.size
    push_neg at hg
    obtain ⟨hg1, hg2⟩ := hg
    rw [Nat.mod_eq_sub_mod (by omega), Nat.mod_eq_of_lt (by omega)]
    omega

theorem copyPre_occ {s : RingState} {n : Nat} (hInv : InvM s)
    (hn : n ≠ 0) (hle : n ≤ occupiedBytes s) :
    occupiedBytes (copyPre s n) = occupiedBytes s - n := by
  obtain ⟨hk1, hk2, hk3, hk4, hk5⟩ := copyPre_fields hInv hn hle
  obtain ⟨hh, ht, hL⟩ := hInv
  have hn1 : 1 ≤ n := Nat.one_le_iff_ne_zero.mpr hn
  have hoccle := occupiedBytes_le_size ⟨Nat.le_of_lt hh, Nat.le_of_lt ht, hL⟩
  have hchar := occ_char s
  rcases Nat.lt_or_ge (s.tail + n) s.size with hm | hm
  · have hK : (s.tail + n) % s.size = s.tail + n := Nat.mod_eq_of_lt hm
    rcases Nat.lt_trichotomy ((copyPre s n).tail) s.head with hc | hc | hc
    · rw [occ_lt (s := copyPre s n) (by rw [hk2]; exact hc), hk2, hk1, hK]
      rw [hk1, hK] at hc
      omega
    · rw [occ_eq_other (s := copyPre s n) (by rw [hk2]; exact hc)
        (by rw [hk5]; simp)]
      rw [hk1, hK] at hc
      omega
    · rw [occ_gt (s := copyPre s n) (by rw [hk2]; exact hc), hk2, hk1, hk3, hK]
      rw [hk1, hK] at hc
      omega
  · have hK : (s.tail + n) % s.size = s.tail + n - s.size := by
      rw [Nat.mod_eq_sub_mod hm, Nat.mod_eq_of_lt (by omega)]
    rcases Nat.lt_trichotomy ((copyPre s n).tail) s.head with hc | hc | hc
    · rw [occ_lt (s := copyPre s n) (by rw [hk2]; exact hc), hk2, hk1, hK]
      rw [hk1, hK] at hc
      omega
    · rw [occ_eq_other (s := copyPre s n) (by rw [hk2]; exact hc)
        (by rw [hk5]; simp)]
      rw [hk1, hK] at hc
      omega
    · rw [occ_gt (s := copyPre s n) (by rw [hk2]; exact hc), hk2, hk1, hk3, hK]
      rw [hk1, hK] at hc
      omega

theorem copyPre_invM {s : RingState} {n : Nat} (hInv : InvM s)
    (hn : n ≠ 0) (hle : n ≤ occupiedBytes s) :
    InvM (copyPre s n) := by
  obtain ⟨hk1, hk2, hk3, hk4, hk5⟩ := copyPre_fields hInv hn hle
  obtain ⟨hh, ht, hL⟩ := hInv
  refine ⟨?_, ?_, ?_⟩
  · rw [hk2, hk3]
    exact hh
  · rw [hk1, hk3]
    exact Nat.mod_lt _ (by omega)
  · rw [hk4, hk3]
    exact hL

theorem copyPre_contents {s : RingState} {n : Nat} (hInv : InvM s)
    (hn : n ≠ 0) (hle : n ≤ occupiedBytes s) :
    contents (copyPre s n) = (contents s).drop n := by
  obtain ⟨hk1, hk2, hk3, hk4, hk5⟩ := copyPre_fields hInv hn hle
  have hocc := copyPre_occ hInv hn hle
  have hP := copyPre_invM hInv hn hle
  apply List.ext_getElem?
  intro i
  by_cases hi : i < occupiedBytes s - n
  · rw [contents_getElem (invM_invW hP) (by rw [hocc]; exact hi)]
    rw [List.getElem?_drop]
    rw [contents_getElem (invM_invW hInv) (by omega)]
    rw [hk4, hk1, hk3, Nat.mod_add_mod]
    congr 2
    omega
  · have h1 : (contents (copyPre s n)).length ≤ i := by
      rw [contents_length (invM_invW hP), hocc]
      omega
    have h2 : ((contents s).drop n).length ≤ i := by
      rw [List.length_drop, contents_length (invM_invW hInv)]
      omega
    rw [List.getElem?_eq_none h1, List.getElem?_eq_none h2]

theorem copyOut_sim {s : RingState} {n : Nat} (hInv : InvM s)
    (hle : n ≤ occupiedBytes s) :
    copyOut s n = (contents s).take n := by
  obtain ⟨hh, ht, hL⟩ := hInv
  have hoccle := occupiedBytes_le_size ⟨Nat.le_of_lt hh, Nat.le_of_lt ht, hL⟩
  by_cases hn : n = 0
  · subst hn
    simp [copyOut]
  · rcases Nat.lt_trichotomy s.tail s.head with hth | hth | hth
    · have hos := occ_lt hth
      have hcs := contents_of_lt hL (Nat.le_of_lt hh) hth
      unfold copyOut
      rw [if_neg hn, if_pos (Or.inl hth), hcs, List.take_take]
      congr 1
      omega
    · have hmk : s.lastOperation = LastOperation.PASTE := by
        by_contra hc
        rw [occ_eq_other hth hc] at hle
        omega
      have hosN := occ_eq_paste hth hmk
      have hcs := contents_of_full hL (Nat.le_of_lt ht) hth hmk
      have hlen : (s.buf.drop s.tail).length = s.size - s.tail := by simp [hL]
      unfold copyOut
      rw [if_neg hn]
      by_cases hg : n ≤ s.size - s.tail
      · rw [if_pos (Or.inr hg), hcs, List.take_append_eq_append_take, hlen]
        have hz : n - (s.size - s.tail) = 0 := by omega
        rw [hz]
        simp
      · rw [if_neg (by push_neg; exact ⟨by omega, by omega⟩)]
        rw [hcs, List.take_append_eq_append_take, hlen]
        rw [List.take_of_length_le (show (s.buf.drop s.tail).length ≤ n by
          rw [hlen]; omega)]
        rw [List.take_of_length_le (show (s.buf.drop s.tail).length ≤ s.size - s.tail by
          rw [hlen])]
        congr 1
        rw [List.take_take]
        congr 1
        omega
    · have hos := occ_gt hth
      have hcs := contents_of_gt hL (Nat.le_of_lt ht) hth
      have hlen : (s.buf.drop s.tail).length = s.size - s.tail := by simp [hL]
      unfold copyOut
      rw [if_neg hn]
      by_cases hg : n ≤ s.size - s.tail
      · rw [if_pos (Or.inr hg), hcs, List.take_append_eq_append_take, hlen]
        have hz : n - (s.size - s.tail) = 0 := by omega
        rw [hz]
        simp
      · rw [if_neg (by push_neg; exact ⟨by omega, by omega⟩)]
        rw [hcs, List.take_append_eq_append_take, hlen]
        rw [List.take_of_length_le (show (s.buf.drop s.tail).length ≤ n by
          rw [hlen]; omega)]
        rw [List.take_of_length_le (show (s.buf.drop s.tail).length ≤ s.size - s.tail by
          rw [hlen])]
        congr 1
        rw [List.take_take]
        congr 1
        omega

theorem copyState_sim {s : RingState} {n : Nat} (hInv : InvM s)
    (hle : n ≤ occupiedBytes s) :
    contents (copyState s n) = (contents s).drop n ∧
    InvM (copyState s n) ∧
    occupiedBytes (copyState s n) = occupiedBytes s - n ∧
    (copyState s n).size = s.size ∧
    (copyState s n).buf = s.buf := by
  obtain ⟨hh, ht, hL⟩ := hInv
  by_cases hn : n = 0
  · subst hn
    have hcs : copyState s 0 = s := by
      unfold copyState
      rw [if_pos rfl]
    rw [hcs]
    exact ⟨by simp, ⟨hh, ht, hL⟩, by omega, rfl, rfl⟩
  · obtain ⟨hk1, hk2, hk3, hk4, hk5⟩ := copyPre_fields ⟨hh, ht, hL⟩ hn hle
    have hocc := copyPre_occ ⟨hh, ht, hL⟩ hn hle
    have hP := copyPre_invM ⟨hh, ht, hL⟩ hn hle
    have hcont := copyPre_contents ⟨hh, ht, hL⟩ hn hle
    unfold copyState
    rw [if_neg hn]
    by_cases hz : occupiedBytes (copyPre s n) = 0
    · rw [if_pos hz]
      have hocc0 : occupiedBytes s - n = 0 := by omega
      have hdrop : (contents s).drop n = [] := by
        refine List.drop_of_length_le ?_
        rw [contents_length ⟨Nat.le_of_lt hh, Nat.le_of_lt ht, hL⟩]
        omega
      have hoccR : occupiedBytes
          { copyPre s n with head := 0, tail := 0 } = 0 := by
        refine occ_eq_other rfl ?_
        show (copyPre s n).lastOperation ≠ LastOperation.PASTE
        rw [hk5]
        simp
      refine ⟨?_, ?_, ?_, ?_, ?_⟩
      · rw [contents_nil hoccR, hdrop]
      · refine ⟨?_, ?_, ?_⟩
        · show (0 : Nat) < (copyPre s n).size
          rw [hk3]
          omega
        · show (0 : Nat) < (copyPre s n).size
          rw [hk3]
          omega
        · show (copyPre s n).buf.length = (copyPre s n).size
          rw [hk4, hk3]
          exact hL
      · rw [hoccR]
        omega
      · show (copyPre s n).size = s.size
        exact hk3
      · show (copyPre s n).buf = s.buf
        exact hk4
    · rw [if_neg hz]
      exact ⟨hcont, hP, hocc, hk3, hk4⟩

theorem copy_sim {s : RingState} {n : Nat} (hInv : InvM s)
    (hle : n ≤ occupiedBytes s) :
    (copy s n).1 = (contents s).take n ∧
    contents (copy s n).2 = (contents s).drop n ∧
    InvM (copy s n).2 ∧
    occupiedBytes (copy s n).2 = occupiedBytes s - n ∧
    (copy s n).2.size = s.size ∧
    (copy s n).2.buf = s.buf := by
  obtain ⟨hc1, hc2, hc3, hc4, hc5⟩ := copyState_sim hInv hle
  exact ⟨copyOut_sim hInv hle, hc1, hc2, hc3, hc4, hc5⟩

theorem copy_drain_cursors {s : RingState} {n : Nat} (hInv : InvM s)
    (hn : n ≠ 0) (hall : n = occupiedBytes s) :
    (copy s n).2.head = 0 ∧ (copy s n).2.tail = 0 := by
  have hle : n ≤ occupiedBytes s := Nat.le_of_eq hall
  have hocc := copyPre_occ hInv hn hle
  have hz : occupiedBytes (copyPre s n) = 0 := by omega
  show (copyState s n).head = 0 ∧ (copyState s n).tail = 0
  unfold copyState
  rw [if_neg hn, if_pos hz]
  exact ⟨rfl, rfl⟩

theorem pasteFill_sim {s : RingState} {b : List Nat} (hInv : InvM s)
    (hfit : b.length ≤ s.size - s.head)
    (hfree : b.length ≤ freeBytes s) :
    contents (pasteFill s b) = contents s ++ b ∧
    InvM (pasteFill s b) ∧
    occupiedBytes (pasteFill s b) = occupiedBytes s + b.length ∧
    (pasteFill s b).size = s.size ∧
    (pasteFill s b).tail = s.tail := by
  have hfree2 := occ_plus_len_le hInv hfree
  by_cases hb : b.length = 0
  · have hbn : b = [] := List.length_eq_zero.mp hb
    subst hbn
    have hps : pasteFill s [] = s := by simp [pasteFill]
    rw [hps]
    exact ⟨by simp, hInv, by simp, rfl, rfl⟩
  · have heq : pasteFill s b = contigFill s b := by
      unfold pasteFill contigFill
      rw [if_neg hb]
    rw [heq]
    obtain ⟨hh, ht, hL⟩ := hInv
    have hfit2 : s.head + b.length ≤ s.size := by omega
    exact ⟨contigFill_contents ⟨hh, ht, hL⟩ (by omega) hfit2 hfree2,
      contigFill_invM ⟨hh, ht, hL⟩ hfit2,
      contigFill_occ ⟨hh, ht, hL⟩ (by omega) hfit2 hfree2, rfl, rfl⟩

theorem flushAdvW_eq_copyState {s : RingState} {k : Nat}
    (hk : k ≠ 0) (hfit : k ≤ s.size - s.tail) :
    flushAdvW s k = copyState s k := by
  have hpre : copyPre s k =
      { s with tail := (s.tail + k) % s.size,
               lastOperation := LastOperation.COPY } := by
    unfold copyPre
    rw [if_neg hk, if_pos (Or.inr hfit)]
  unfold flushAdvW copyState
  rw [if_neg hk, hpre]

theorem offered_prefix {s : RingState} {k : Nat} (hW : InvW s)
    (hk1 : k ≤ occupiedBytes s) (hk2 : k ≤ s.size - s.tail) :
    (s.buf.drop s.tail).take k = (contents s).take k := by
  obtain ⟨hh, ht, hL⟩ := hW
  unfold contents
  rw [List.take_take]
  have hmin : min k (occupiedBytes s) = k := by omega
  rw [hmin, List.take_append_eq_append_take]
  have hlen : (s.buf.drop s.tail).length = s.size - s.tail := by simp [hL]
  rw [hlen]
  have hz : k - (s.size - s.tail) = 0 := by omega
  rw [hz]
  simp

/-- One producer or consumer primitive applied to the shared ring, with
the validity side conditions the engines establish before calling it. -/
inductive RingOp where
  | putOp (data : List Nat)
  | copyOp (len : Nat)
deriving DecidableEq, Repr

/-- Run of a sequence of put and copy primitives on the ring, collecting
the bytes copied out. -/
def runOps : RingState → List RingOp → List Nat × RingState
  | s, [] => ([], s)
  | s, RingOp.putOp d :: rest => runOps (put s d) rest
  | s, RingOp.copyOp n :: rest =>
      let r := runOps (copyState s n) rest
      (copyOut s n ++ r.1, r.2)

/-- The side conditions of a run: every put fits in the free space and
every copy stays within the occupied bytes, as the engines guarantee at
each call site. -/
def validOps : RingState → List RingOp → Bool
  | _, [] => true
  | s, RingOp.putOp d :: rest =>
      decide (d.length ≤ freeBytes s) && validOps (put s d) rest
  | s, RingOp.copyOp n :: rest =>
      decide (n ≤ occupiedBytes s) && validOps (copyState s n) rest

/-- Concatenation of all bytes placed into the ring by a sequence of
operations, in order. -/
def putsConcat : List RingOp → List Nat
  | [] => []
  | RingOp.putOp d :: rest => d ++ putsConcat rest
  | RingOp.copyOp _ :: rest => putsConcat rest

theorem runOps_spec : ∀ (ops : List RingOp) (s : RingState), InvM s →
    validOps s ops = true →
    (runOps s ops).1 ++ contents (runOps s ops).2
        = contents s ++ putsConcat ops ∧
    InvM (runOps s ops).2 := by
  intro ops
  induction ops with
  | nil =>
      intro s hInv _
      simp [runOps, putsConcat]
      exact hInv
  | cons op rest ih =>
      intro s hInv hv
      cases op with
      | putOp d =>
          rw [validOps] at hv
          simp only [Bool.and_eq_true, decide_eq_true_eq] at hv
          obtain ⟨hle, hv2⟩ := hv
          obtain ⟨hpI, hpC, hpO, hpS, hpT⟩ := put_sim hInv hle
          obtain ⟨ih1, ih2⟩ := ih (put s d) hpI hv2
          show (runOps (put s d) rest).1 ++ contents (runOps (put s d) rest).2
              = contents s ++ (d ++ putsConcat rest) ∧ _
          rw [ih1, hpC, List.append_assoc]
          exact ⟨rfl, ih2⟩
      | copyOp n =>
          rw [validOps] at hv
          simp only [Bool.and_eq_true, decide_eq_true_eq] at hv
          obtain ⟨hle, hv2⟩ := hv
          obtain ⟨ho, hcC, hcI, hcO, hcS, hcB⟩ := copy_sim hInv hle
          obtain ⟨ih1, ih2⟩ := ih (copyState s n) hcI hv2
          show (copyOut s n ++ (runOps (copyState s n) rest).1)
                ++ contents (runOps (copyState s n) rest).2
              = contents s ++ putsConcat rest ∧ _
          rw [List.append_assoc, ih1]
          constructor
          · show copyOut s n ++ (contents (copyState s n) ++ putsConcat rest)
                = contents s ++ putsConcat rest
            have hocs : contents (copyState s n) = (contents s).drop n := hcC
            have hoo : copyOut s n = (contents s).take n := ho
            rw [hoo, hocs, ← List.append_assoc, List.take_append_drop]
          · exact ih2

/-- C1: the round-trip and FIFO claim.  The first conjunct is the
amended round trip: from any well-formed EMPTY ring state, putting a
string s of length between 1 and the capacity and then copying out that
many bytes returns exactly s.  The second conjunct is strict FIFO across
any valid interleaving of puts and copies: the bytes copied out followed
by the bytes still buffered equal the prior contents followed by all
bytes put, in order.  The third conjunct specialises to a freshly
constructed ring: the copied-out bytes are a prefix of the concatenated
put bytes, so total bytes readable never exceed total bytes written. -/
theorem c1_ring_fifo_roundtrip :
    (∀ (s : RingState) (d : List Nat), InvM s → occupiedBytes s = 0 →
        1 ≤ d.length → d.length ≤ s.size →
        (copy (put s d) d.length).1 = d) ∧
    (∀ (s : RingState) (ops : List RingOp), InvM s → validOps s ops = true →
        (runOps s ops).1 ++ contents (runOps s ops).2
          = contents s ++ putsConcat ops) ∧
    (∀ (n : Nat) (ops : List RingOp), validOps (initState n) ops = true →
        (runOps (initState n) ops).1
          = (putsConcat ops).take (runOps (initState n) ops).1.length ∧
        (runOps (initState n) ops).1.length ≤ (putsConcat ops).length) := by
  refine ⟨?_, ?_, ?_⟩
  · intro s d hInv hocc h1 hlen
    have hle : d.length ≤ freeBytes s := by
      unfold freeBytes
      omega
    obtain ⟨hpI, hpC, hpO, hpS, hpT⟩ := put_sim hInv hle
    have hocc2 : d.length ≤ occupiedBytes (put s d) := by omega
    obtain ⟨ho, -, -, -, -, -⟩ := copy_sim hpI hocc2
    rw [ho, hpC, contents_nil hocc, List.nil_append]
    exact List.take_length d
  · intro s ops hInv hv
    exact (runOps_spec ops s hInv hv).1
  · intro n ops hv
    by_cases hn : n = 0
    · subst hn
      have hInv0 : InvW (initState 0) := initState_invW 0
      have hfix : ∀ ops2, validOps (initState 0) ops2 = true →
          runOps (initState 0) ops2 = ([], initState 0) := by
        intro ops2
        induction ops2 with
        | nil => intro _; rfl
        | cons op rest ih =>
            intro hv2
            cases op with
            | putOp d =>
                rw [validOps] at hv2
                simp only [Bool.and_eq_true, decide_eq_true_eq] at hv2
                obtain ⟨hle, hv3⟩ := hv2
                have hd0 : d.length = 0 := by
                  have : freeBytes (initState 0) = 0 := by decide
                  omega
                have hput : put (initState 0) d = initState 0 := by
                  unfold put
                  rw [if_pos hd0]
                show runOps (put (initState 0) d) rest = ([], initState 0)
                rw [hput]
                exact ih (by rw [hput] at hv3; exact hv3)
            | copyOp m =>
                rw [validOps] at hv2
                simp only [Bool.and_eq_true, decide_eq_true_eq] at hv2
                obtain ⟨hle, hv3⟩ := hv2
                have hm0 : m = 0 := by
                  have : occupiedBytes (initState 0) = 0 := by decide
                  omega
                subst hm0
                have hcs : copyState (initState 0) 0 = initState 0 := by
                  unfold copyState
                  rw [if_pos rfl]
                have hco : copyOut (initState 0) 0 = [] := by
                  unfold copyOut
                  rw [if_pos rfl]
                show (copyOut (initState 0) 0
                    ++ (runOps (copyState (initState 0) 0) rest).1,
                    (runOps (copyState (initState 0) 0) rest).2)
                    = ([], initState 0)
                rw [hco, hcs, ih (by rw [hcs] at hv3; exact hv3)]
                rfl
      rw [hfix ops hv]
      simp
    · have hInv : InvM (initState n) := initState_invM (by omega)
      have hmain := (runOps_spec ops (initState n) hInv hv).1
      rw [contents_nil (occupiedBytes_initState n), List.nil_append] at hmain
      constructor
      · rw [← hmain, List.take_left]
      · rw [← hmain, List.length_append]
        omega

/-- C1 counterexample: the claim as frozen quantifies over every
reachable state with enough FREE space, not only empty states.  From a
fresh ring of capacity 2, after put [7] the state is reachable and has
1 byte free, yet put [9] followed by a 1-byte copy returns [7] (the
older byte, by FIFO), not [9]. -/
theorem c1_counterexample :
    freeBytes (put (initState 2) [7]) = 1 ∧
    occupiedBytes (put (initState 2) [7]) = 1 ∧
    (copy (put (put (initState 2) [7]) [9]) 1).1 = [7] ∧
    [7] ≠ ([9] : List Nat) := by
  refine ⟨by decide, by decide, ?_, by decide⟩
  decide

/-- C1 witness: the round trip at a concrete empty ring and the FIFO
property at a concrete interleaving. -/
theorem c1_witness :
    (copy (put (initState 3) [5, 6]) 2).1 = [5, 6] ∧
    (runOps (initState 2) [RingOp.putOp [1, 2], RingOp.copyOp 1,
        RingOp.putOp [3], RingOp.copyOp 2]).1
      = (putsConcat [RingOp.putOp [1, 2], RingOp.copyOp 1,
        RingOp.putOp [3], RingOp.copyOp 2]).take
          (runOps (initState 2) [RingOp.putOp [1, 2], RingOp.copyOp 1,
            RingOp.putOp [3], RingOp.copyOp 2]).1.length := by
  constructor
  · exact c1_ring_fifo_roundtrip.1 (initState 3) [5, 6]
      (by refine ⟨by decide, by decide, by decide⟩) (by decide)
      (by decide) (by decide)
  · exact (c1_ring_fifo_roundtrip.2.2 2 [RingOp.putOp [1, 2], RingOp.copyOp 1,
      RingOp.putOp [3], RingOp.copyOp 2] (by decide)).1

/-- The flush() of SyncIOLazyWriteBuffer, parametrised by the sink
oracle (a function from a sink state and the offered contiguous bytes to
the accepted count and the next sink state).  The model reproduces the
source faithfully, including the operator-precedence slip in the wrapped
branch: ret is assigned the BOOLEAN of the comparison of the first sink
call result with lengthTillEnd (0 or 1), so on a full first segment the
function returns 1 + r2 rather than lengthTillEnd + r2, and on a partial
first segment it returns 0 and leaves the tail untouched even though the
sink accepted bytes. -/
def flushLazyS {σ : Type} (sink : σ → List Nat → Nat × σ) (st : σ)
    (s : RingState) : Nat × RingState × σ :=
  if occupiedBytes s = 0 then (0, s, st)
  else if s.tail < s.head then
    let offered := (s.buf.drop s.tail).take (occupiedBytes s)
    let r := (sink st offered).1
    let st1 := (sink st offered).2
    let s1 := { s with tail := s.tail + r }
    if r ≠ 0 then
      if s1.tail = s1.head then
        (r, { s1 with tail := 0, head := 0, lastOperation := LastOperation.COPY }, st1)
      else (r, { s1 with lastOperation := LastOperation.COPY }, st1)
    else (r, s1, st1)
  else
    let lengthTillEnd := s.size - s.tail
    let offered := (s.buf.drop s.tail).take lengthTillEnd
    let r1 := (sink st offered).1
    let st1 := (sink st offered).2
    if r1 = lengthTillEnd then
      let offered2 := s.buf.take s.head
      let r2 := (sink st1 offered2).1
      let st2 := (sink st1 offered2).2
      let s1 := { s with tail := r2 }
      if s1.tail = s1.head then
        (1 + r2, { s1 with tail := 0, head := 0, lastOperation := LastOperation.COPY }, st2)
      else (1 + r2, { s1 with lastOperation := LastOperation.COPY }, st2)
    else (0, s, st1)

/-- Sink contract: a sink never reports more accepted bytes than it was
offered. -/
def SinkOk {σ : Type} (sink : σ → List Nat → Nat × σ) : Prop :=
  ∀ (st : σ) (o : List Nat), (sink st o).1 ≤ o.length

/-- The write(out, len) loop of SyncIOLazyWriteBuffer, with fuel for the
for-loop.  The loop keeps running while the free space is smaller than
the remaining length AND flushfailed is false; each iteration places the
free-space prefix, then the loop increment assigns the flush RESULT to
the boolean flushfailed (the source converts the returned count to bool,
so a flush that accepted bytes sets flushfailed to true and stops the
loop).  On exit the remainder that fits is placed. -/
def writeLazyGo {σ : Type} (sink : σ → List Nat → Nat × σ) :
    Nat → σ → RingState → List Nat → Nat → Bool → Nat × RingState × σ
  | 0, st, s, _, ret, _ => (ret, s, st)
  | fuel+1, st, s, data, ret, flushfailed =>
      if freeBytes s < data.length ∧ flushfailed = false then
        let free := freeBytes s
        let s1 := putLazy s (data.take free)
        let f := (flushLazyS sink st s1).1
        let s2 := (flushLazyS sink st s1).2.1
        let st2 := (flushLazyS sink st s1).2.2
        writeLazyGo sink fuel st2 s2 (data.drop free) (ret + free)
          (decide (f ≠ 0))
      else
        let toPut := min data.length (freeBytes s)
        (ret + toPut, putLazy s (data.take toPut), st)

/-- write(out, len) of SyncIOLazyWriteBuffer: the loop started with zero
accepted bytes and flushfailed false. -/
def writeLazy {σ : Type} (sink : σ → List Nat → Nat × σ) (fuel : Nat)
    (st : σ) (s : RingState) (data : List Nat) : Nat × RingState × σ :=
  writeLazyGo sink fuel st s data 0 false

/-- A sink that accepts everything offered, recording the bytes it
received. -/
def allAcceptSink : List Nat → List Nat → Nat × List Nat :=
  fun st o => (o.length, st ++ o)

/-- A sink that accepts at most one byte per call, recording the bytes
it accepted. -/
def oneByteSink : List Nat → List Nat → Nat × List Nat :=
  fun st o => (min 1 o.length, st ++ o.take (min 1 o.length))

theorem copyPre_size (s : RingState) (n : Nat) : (copyPre s n).size = s.size := by
  unfold copyPre
  split_ifs <;> rfl

theorem copyPre_buf (s : RingState) (n : Nat) : (copyPre s n).buf = s.buf := by
  unfold copyPre
  split_ifs <;> rfl

theorem copyPre_head (s : RingState) (n : Nat) : (copyPre s n).head = s.head := by
  unfold copyPre
  split_ifs <;> rfl

theorem put_invW {s : RingState} {d : List Nat} (hW : InvW s)
    (hle : d.length ≤ freeBytes s) : InvW (put s d) := by
  obtain ⟨hh, ht, hL⟩ := hW
  have hoccle := occupiedBytes_le_size ⟨hh, ht, hL⟩
  have hchar := occ_char s
  by_cases hd : d.length = 0
  · unfold put
    rw [if_pos hd]
    exact ⟨hh, ht, hL⟩
  · have hfree2 : occupiedBytes s + d.length ≤ s.size := by
      unfold freeBytes at hle
      omega
    have hN : 1 ≤ s.size := by omega
    unfold put
    rw [if_neg hd]
    split_ifs with hg
    · have hfit : s.head + d.length ≤ s.size := by
        rcases hg with hg | hg
        · rcases hchar with ⟨hth, hoc⟩ | ⟨hth, hoc⟩ | ⟨hth, hoc⟩ <;> omega
        · omega
      refine ⟨?_, ht, ?_⟩
      · show (s.head + d.length) % s.size ≤ s.size
        exact Nat.le_of_lt (Nat.mod_lt _ (by omega))
      · show (writeSeg s.buf s.head d).length = s.size
        rw [writeSeg_length (by omega)]
        exact hL
    · push_neg at hg
      obtain ⟨hg1, hg2⟩ := hg
      have hlen1 : (d.take (s.size - s.head)).length = s.size - s.head := by
        rw [List.length_take]
        omega
      refine ⟨?_, ht, ?_⟩
      · show d.length - (s.size - s.head) ≤ s.size
        omega
      · show (writeSeg (writeSeg s.buf s.head (d.take (s.size - s.head))) 0
            (d.drop (s.size - s.head))).length = s.size
        have hinner : (writeSeg s.buf s.head (d.take (s.size - s.head))).length
            = s.size := by
          rw [writeSeg_length (by rw [hlen1]; omega)]
          exact hL
        rw [writeSeg_length (by rw [hinner, List.length_drop]; omega)]
        exact hinner

theorem putLazy_invW {s : RingState} {d : List Nat} (hW : InvW s)
    (hle : d.length ≤ freeBytes s) : InvW (putLazy s d) := by
  obtain ⟨hh, ht, hL⟩ := hW
  have hoccle := occupiedBytes_le_size ⟨hh, ht, hL⟩
  have hchar := occ_char s
  by_cases hd : d.length = 0
  · unfold putLazy
    rw [if_pos hd]
    exact ⟨hh, ht, hL⟩
  · have hfree2 : occupiedBytes s + d.length ≤ s.size := by
      unfold freeBytes at hle
      omega
    unfold putLazy
    rw [if_neg hd]
    split_ifs with hg
    · have hfit : s.head + d.length ≤ s.size := by
        rcases hg with hg | hg
        · rcases hchar with ⟨hth, hoc⟩ | ⟨hth, hoc⟩ | ⟨hth, hoc⟩ <;> omega
        · omega
      refine ⟨?_, ht, ?_⟩
      · show s.head + d.length ≤ s.size
        exact hfit
      · show (writeSeg s.buf s.head d).length = s.size
        rw [writeSeg_length (by omega)]
        exact hL
    · push_neg at hg
      obtain ⟨hg1, hg2⟩ := hg
      have hlen1 : (d.take (s.size - s.head)).length = s.size - s.head := by
        rw [List.length_take]
        omega
      refine ⟨?_, ht, ?_⟩
      · show d.length - (s.size - s.head) ≤ s.size
        omega
      · show (writeSeg (writeSeg s.buf s.head (d.take (s.size - s.head))) 0
            (d.drop (s.size - s.head))).length = s.size
        have hinner : (writeSeg s.buf s.head (d.take (s.size - s.head))).length
            = s.size := by
          rw [writeSeg_length (by rw [hlen1]; omega)]
          exact hL
        rw [writeSeg_length (by rw [hinner, List.length_drop]; omega)]
        exact hinner

theorem copyState_invW {s : RingState} {n : Nat} (hW : InvW s)
    (hle : n ≤ occupiedBytes s) : InvW (copyState s n) := by
  obtain ⟨hh, ht, hL⟩ := hW
  have hoccle := occupiedBytes_le_size ⟨hh, ht, hL⟩
  by_cases hn : n = 0
  · subst hn
    unfold copyState
    rw [if_pos rfl]
    exact ⟨hh, ht, hL⟩
  · have hN : 1 ≤ s.size := by omega
    have hP : InvW (copyPre s n) := by
      unfold copyPre
      rw [if_neg hn]
      split_ifs with hg
      · refine ⟨hh, ?_, hL⟩
        show (s.tail + n) % s.size ≤ s.size
        exact Nat.le_of_lt (Nat.mod_lt _ (by omega))
      · refine ⟨hh, ?_, hL⟩
        show n - (s.size - s.tail) ≤ s.size
        omega
    unfold copyState
    rw [if_neg hn]
    split_ifs with hz
    · obtain ⟨hp1, hp2, hp3⟩ := hP
      exact ⟨Nat.zero_le _, Nat.zero_le _, hp3⟩
    · exact hP

theorem pasteFill_invW {s : RingState} {bytes : List Nat} (hW : InvW s)
    (h1 : bytes.length ≤ freeBytes s) (h2 : bytes.length ≤ s.size - s.head) :
    InvW (pasteFill s bytes) := by
  obtain ⟨hh, ht, hL⟩ := hW
  have hoccle := occupiedBytes_le_size ⟨hh, ht, hL⟩
  by_cases hb : bytes.length = 0
  · unfold pasteFill
    rw [if_pos hb]
    exact ⟨hh, ht, hL⟩
  · have hN : 1 ≤ s.size := by
      unfold freeBytes at h1
      omega
    unfold pasteFill
    rw [if_neg hb]
    refine ⟨?_, ht, ?_⟩
    · show (s.head + bytes.length) % s.size ≤ s.size
      exact Nat.le_of_lt (Nat.mod_lt _ (by omega))
    · show (writeSeg s.buf s.head bytes).length = s.size
      rw [writeSeg_length (by omega)]
      exact hL

theorem flushAdvW_invW {s : RingState} {k : Nat} (hW : InvW s)
    (h2 : k ≤ s.size - s.tail) : InvW (flushAdvW s k) := by
  obtain ⟨hh, ht, hL⟩ := hW
  have htail : (s.tail + k) % s.size ≤ s.size := by
    rcases Nat.eq_zero_or_pos s.size with h0 | h0
    · rw [h0, Nat.mod_zero]
      omega
    · exact Nat.le_of_lt (Nat.mod_lt _ h0)
  unfold flushAdvW
  split_ifs with hz
  · exact ⟨Nat.zero_le _, Nat.zero_le _, hL⟩
  · exact ⟨hh, htail, hL⟩

theorem flushLazyS_invW {σ : Type} {sink : σ → List Nat → Nat × σ} {st : σ}
    {s : RingState} (hW : InvW s) (hs : SinkOk sink) :
    InvW (flushLazyS sink st s).2.1 := by
  obtain ⟨hh, ht, hL⟩ := hW
  have hoccle := occupiedBytes_le_size ⟨hh, ht, hL⟩
  unfold flushLazyS
  dsimp only
  split_ifs with h0 h1 h2 h3 h4 h5
  · exact ⟨hh, ht, hL⟩
  · exact ⟨Nat.zero_le _, Nat.zero_le _, hL⟩
  · refine ⟨hh, ?_, hL⟩
    show s.tail + (sink st ((s.buf.drop s.tail).take (occupiedBytes s))).1 ≤ s.size
    have hr := hs st ((s.buf.drop s.tail).take (occupiedBytes s))
    rw [List.length_take, List.length_drop, hL] at hr
    omega
  · refine ⟨hh, ?_, hL⟩
    show s.tail + (sink st ((s.buf.drop s.tail).take (occupiedBytes s))).1 ≤ s.size
    have hr := hs st ((s.buf.drop s.tail).take (occupiedBytes s))
    rw [List.length_take, List.length_drop, hL] at hr
    omega
  · exact ⟨Nat.zero_le _, Nat.zero_le _, hL⟩
  · refine ⟨hh, ?_, hL⟩
    have hr := hs (sink st ((s.buf.drop s.tail).take (s.size - s.tail))).2
      (s.buf.take s.head)
    rw [List.length_take, hL] at hr
    show (sink (sink st ((s.buf.drop s.tail).take (s.size - s.tail))).2
        (s.buf.take s.head)).1 ≤ s.size
    omega
  · exact ⟨hh, ht, hL⟩

/-- One mutation of the shared modular ring, as performed by the async
read buffer, the sync read buffer and the async write buffer: a put
bounded by the free space, a copy bounded by the occupied bytes, a
refill of the contiguous free run at the head, or a flush advance of the
tail bounded by the contiguous occupied run. -/
inductive MStep : RingState → RingState → Prop where
  | putStep (s : RingState) (d : List Nat)
      (h : d.length ≤ freeBytes s) : MStep s (put s d)
  | copyStep (s : RingState) (n : Nat)
      (h : n ≤ occupiedBytes s) : MStep s (copyState s n)
  | pasteStep (s : RingState) (bytes : List Nat)
      (h1 : bytes.length ≤ freeBytes s)
      (h2 : bytes.length ≤ s.size - s.head) : MStep s (pasteFill s bytes)
  | flushStep (s : RingState) (k : Nat)
      (h1 : k ≤ occupiedBytes s)
      (h2 : k ≤ s.size - s.tail) : MStep s (flushAdvW s k)

/-- States of the modular ring reachable from construction. -/
inductive ReachableM : RingState → Prop where
  | init (n : Nat) : ReachableM (initState n)
  | step {s t : RingState} : ReachableM s → MStep s t → ReachableM t

/-- One mutation of the lazy writer ring: a put bounded by the free
space, or a flush driven by any sink satisfying the contract. -/
inductive LStep : RingState → RingState → Prop where
  | putStep (s : RingState) (d : List Nat)
      (h : d.length ≤ freeBytes s) : LStep s (putLazy s d)
  | flushStep {σ : Type} (s : RingState) (sink : σ → List Nat → Nat × σ)
      (st : σ) (hs : SinkOk sink) : LStep s (flushLazyS sink st s).2.1

/-- States of the lazy writer ring reachable from construction. -/
inductive ReachableL : RingState → Prop where
  | init (n : Nat) : ReachableL (initState n)
  | step {s t : RingState} : ReachableL s → LStep s t → ReachableL t

theorem reachableM_invW {s : RingState} (h : ReachableM s) : InvW s := by
  induction h with
  | init n => exact initState_invW n
  | step _ hstep ih =>
      cases hstep with
      | putStep d h => exact put_invW ih h
      | copyStep n h => exact copyState_invW ih h
      | pasteStep bytes h1 h2 => exact pasteFill_invW ih h1 h2
      | flushStep k h1 h2 => exact flushAdvW_invW ih h2

theorem reachableL_invW {s : RingState} (h : ReachableL s) : InvW s := by
  induction h with
  | init n => exact initState_invW n
  | step _ hstep ih =>
      cases hstep with
      | putStep s d h => exact putLazy_invW ih h
      | flushStep σ sink st hs => exact flushLazyS_invW ih hs

/-- C2: the occupancy invariant.  For every reachable state of the
modular engines (async read, sync read, async write) and of the lazy
write engine, the occupancy oracle stays between 0 and the capacity and
occupiedBytes plus freeBytes equals the capacity. -/
theorem c2_occupancy_invariant :
    (∀ s : RingState, ReachableM s →
        occupiedBytes s ≤ capacity s ∧
        occupiedBytes s + freeBytes s = capacity s) ∧
    (∀ s : RingState, ReachableL s →
        occupiedBytes s ≤ capacity s ∧
        occupiedBytes s + freeBytes s = capacity s) := by
  constructor
  · intro s h
    have hW := reachableM_invW h
    have hle := occupiedBytes_le_size hW
    unfold capacity freeBytes
    omega
  · intro s h
    have hW := reachableL_invW h
    have hle := occupiedBytes_le_size hW
    unfold capacity freeBytes
    omega

/-- C2 witness: the invariant at concrete reachable states of both
machines. -/
theorem c2_witness :
    (occupiedBytes (put (initState 4) [1, 2, 3]) ≤ capacity (put (initState 4) [1, 2, 3]) ∧
     occupiedBytes (put (initState 4) [1, 2, 3]) + freeBytes (put (initState 4) [1, 2, 3])
       = capacity (put (initState 4) [1, 2, 3])) ∧
    (occupiedBytes (putLazy (initState 4) [1, 2, 3, 4])
        ≤ capacity (putLazy (initState 4) [1, 2, 3, 4]) ∧
     occupiedBytes (putLazy (initState 4) [1, 2, 3, 4])
        + freeBytes (putLazy (initState 4) [1, 2, 3, 4])
       = capacity (putLazy (initState 4) [1, 2, 3, 4])) := by
  constructor
  · exact c2_occupancy_invariant.1 (put (initState 4) [1, 2, 3])
      (ReachableM.step (ReachableM.init 4)
        (MStep.putStep (initState 4) [1, 2, 3] (by decide)))
  · exact c2_occupancy_invariant.2 (putLazy (initState 4) [1, 2, 3, 4])
      (ReachableL.step (ReachableL.init 4)
        (LStep.putStep (initState 4) [1, 2, 3, 4] (by decide)))

/-- C3 (code bug in the part_001 draft): the AsyncIOWriteBuffer variant
of the unnamed source part_001 resolves head==tail as 0 only for the
consumer marker (WRITE) and as m_size otherwise, so the freshly
constructed state (marker NONE, head = tail = 0) of a capacity-1 buffer
reports itself full: its occupiedBytes returns the capacity 1 instead of
the 0 the claim (and the AsyncSmartBuffer.hpp oracle, third conjunct)
requires. -/
theorem c3_part001_marker_inversion :
    occupiedBytesWB1 (initState 1) = 1 ∧
    capacity (initState 1) = 1 ∧
    occupiedBytes (initState 1) = 0 ∧
    occupiedBytesWB1 (initState 1) ≠ 0 := by
  decide

/-- C9 (code bug): the constructors only coerce the malloc argument,
not m_size: constructing any engine with requested capacity 0 leaves
m_size at 0, so capacity() returns 0 (not the documented 1), freeBytes()
is 0, and no byte can ever be buffered (every placement is clamped to
the free space). -/
theorem c9_capacity_zero_not_coerced :
    capacity (initState 0) = 0 ∧
    capacity (initState 0) ≠ 1 ∧
    freeBytes (initState 0) = 0 ∧
    put (initState 0) [] = initState 0 ∧
    putLazy (initState 0) [] = initState 0 := by
  decide

/-- C6 (code bug): the loop of SyncIOLazyWriteBuffer::write assigns the
flush RESULT to the boolean flushfailed, so a flush that accepted bytes
is treated as a failure and stops the loop.  Writing the five bytes of
the string Hello through a capacity-1 writer with a sink that accepts
everything returns 2 with only the first byte (72) pushed to the sink,
where the claim (and the repository test, which expects the first four
bytes flushed) requires the full 5. -/
theorem c6_write_flushfailed_inversion :
    (writeLazy allAcceptSink 10 [] (initState 1) [72, 101, 108, 108, 111]).1 = 2 ∧
    (writeLazy allAcceptSink 10 [] (initState 1) [72, 101, 108, 108, 111]).2.2 = [72] ∧
    (2 : Nat) ≠ 5 := by
  refine ⟨?_, ?_, by decide⟩ <;> decide

/-- C7 (code bug): the wrapped branch of SyncIOLazyWriteBuffer::flush
assigns ret the boolean of the comparison with lengthTillEnd.  From a
reachable wrapped full state of capacity 4 (occupied [11,12,13,14] with
tail = head = 1), a flush against an all-accepting sink delivers all 4
bytes and drains the buffer, yet returns 2; and a flush against a sink
accepting only 1 of the 3 offered bytes returns 0 and leaves the tail
untouched, so the accepted byte 11 stays buffered and will be offered to
the sink again. -/
theorem c7_flush_wrapped_precedence_bug :
    occupiedBytes (putLazy (flushLazyS oneByteSink []
        (putLazy (initState 4) [10, 11])).2.1 [12, 13, 14]) = 4 ∧
    (flushLazyS allAcceptSink [] (putLazy (flushLazyS oneByteSink []
        (putLazy (initState 4) [10, 11])).2.1 [12, 13, 14])).1 = 2 ∧
    (flushLazyS allAcceptSink [] (putLazy (flushLazyS oneByteSink []
        (putLazy (initState 4) [10, 11])).2.1 [12, 13, 14])).2.2 = [11, 12, 13, 14] ∧
    occupiedBytes (flushLazyS allAcceptSink [] (putLazy (flushLazyS oneByteSink []
        (putLazy (initState 4) [10, 11])).2.1 [12, 13, 14])).2.1 = 0 ∧
    (flushLazyS oneByteSink [] (putLazy (flushLazyS oneByteSink []
        (putLazy (initState 4) [10, 11])).2.1 [12, 13, 14])).1 = 0 ∧
    (flushLazyS oneByteSink [] (putLazy (flushLazyS oneByteSink []
        (putLazy (initState 4) [10, 11])).2.1 [12, 13, 14])).2.1
      = putLazy (flushLazyS oneByteSink []
        (putLazy (initState 4) [10, 11])).2.1 [12, 13, 14] ∧
    (flushLazyS oneByteSink [] (putLazy (flushLazyS oneByteSink []
        (putLazy (initState 4) [10, 11])).2.1 [12, 13, 14])).2.2 = [11] := by
  refine ⟨?_, ?_, ?_, ?_, ?_, ?_, ?_⟩ <;> decide

/-- Pull contract: a source never delivers more bytes than requested. -/
def PullOk {σ : Type} (pull : σ → Nat → List Nat × σ) : Prop :=
  ∀ (st : σ) (n : Nat), ((pull st n).1).length ≤ n

/-- A productive source delivers at least one byte whenever at least one
byte is requested. -/
def Productive {σ : Type} (pull : σ → Nat → List Nat × σ) : Prop :=
  ∀ (st : σ) (n : Nat), 1 ≤ n → 1 ≤ ((pull st n).1).length

/-- pasteFromInterface of SyncIOReadBuffer: one pull into the contiguous
run at the head; on a nonzero result the head advances and the marker
becomes PASTE (pasteFill), on a zero result the ring is untouched.  The
pull is skipped entirely when len is 0. -/
def pasteFromInterface {σ : Type} (pull : σ → Nat → List Nat × σ) (st : σ)
    (s : RingState) (len : Nat) : Nat × RingState × σ :=
  if len = 0 then (0, s, st)
  else
    (((pull st len).1).length, pasteFill s ((pull st len).1), (pull st len).2)

/-- paste of SyncIOReadBuffer: refills the ring from the source, first
into the run from the head to the end of storage, and, if that run was
delivered in full and free space remains (the free region wrapped), a
second pull into the run at the start of storage. -/
def paste {σ : Type} (pull : σ → Nat → List Nat × σ) (st : σ)
    (s : RingState) : Nat × RingState × σ :=
  if freeBytes s = 0 then (0, s, st)
  else
    let toRead := min (s.size - s.head) (freeBytes s)
    let r1 := (pasteFromInterface pull st s toRead).1
    let s1 := (pasteFromInterface pull st s toRead).2.1
    let st1 := (pasteFromInterface pull st s toRead).2.2
    if r1 = toRead ∧ freeBytes s - r1 ≠ 0 then
      ((r1 + (pasteFromInterface pull st1 s1 (freeBytes s - r1)).1),
       (pasteFromInterface pull st1 s1 (freeBytes s - r1)).2.1,
       (pasteFromInterface pull st1 s1 (freeBytes s - r1)).2.2)
    else (r1, s1, st1)

/-- The while loop of SyncIOReadBuffer::read: while fewer than len bytes
have been served and the source still delivers, refill and copy out the
smaller of the occupied bytes and the remaining request.  The result is
the count served by the whole read, the bytes emitted BY THE LOOP, the
ring state and the source state.  The fuel bounds the iteration count;
len iterations always suffice. -/
def readSyncLoop {σ : Type} (pull : σ → Nat → List Nat × σ) :
    Nat → σ → RingState → Nat → Nat → Nat × List Nat × RingState × σ
  | 0, st, s, _, ret => (ret, [], s, st)
  | fuel+1, st, s, len, ret =>
      if ret < len then
        if (paste pull st s).1 = 0 then
          (ret, [], (paste pull st s).2.1, (paste pull st s).2.2)
        else
          let s1 := (paste pull st s).2.1
          let st1 := (paste pull st s).2.2
          let toCopy := min (occupiedBytes s1) (len - ret)
          let r := readSyncLoop pull fuel st1 (copy s1 toCopy).2 len (ret + toCopy)
          (r.1, (copy s1 toCopy).1 ++ r.2.1, r.2.2)
      else (ret, [], s, st)

/-- SyncIOReadBuffer::read(out, len, ioInterface): serve from the ring
when it already holds len bytes; otherwise refill once and either serve
len bytes, or serve everything occupied and enter the while loop.  A
zero-result first refill returns 0 with nothing copied. -/
def readSync {σ : Type} (pull : σ → Nat → List Nat × σ) (fuel : Nat)
    (st : σ) (s : RingState) (len : Nat) : Nat × List Nat × RingState × σ :=
  if occupiedBytes s ≥ len then
    (len, (copy s len).1, (copy s len).2, st)
  else if (paste pull st s).1 = 0 then
    (0, [], (paste pull st s).2.1, (paste pull st s).2.2)
  else
    let s1 := (paste pull st s).2.1
    let st1 := (paste pull st s).2.2
    if occupiedBytes s1 ≥ len then
      (len, (copy s1 len).1, (copy s1 len).2, st1)
    else
      let occB := occupiedBytes s1
      let r := readSyncLoop pull fuel st1 (copy s1 occB).2 len occB
      (r.1, (copy s1 occB).1 ++ r.2.1, r.2.2)

/-- The continuation loop of AsyncIOReadBuffer: one asynchronous pull
into the contiguous free run at the head followed by
onReadFromInterface, which reports the served count on exhaustion,
otherwise advances the head (pasteFill), copies out toward the request
and either reports completion or issues the next pull. -/
def asyncReadGo {σ : Type} (pull : σ → Nat → List Nat × σ) :
    Nat → σ → RingState → Nat → Nat → Nat × List Nat × RingState × σ
  | 0, st, s, _, totalRead => (totalRead, [], s, st)
  | fuel+1, st, s, totalRequired, totalRead =>
      let toRead := min (freeBytes s) (s.size - s.head)
      let bytes := (pull st toRead).1
      let st1 := (pull st toRead).2
      if bytes.length = 0 then (totalRead, [], s, st1)
      else
        let s1 := pasteFill s bytes
        let totalLeft := totalRequired - totalRead
        let toCopy := min totalLeft (occupiedBytes s1)
        if totalLeft - toCopy = 0 then
          (totalRequired, (copy s1 toCopy).1, (copy s1 toCopy).2, st1)
        else
          let r := asyncReadGo pull fuel st1 (copy s1 toCopy).2 totalRequired
            (totalRead + toCopy)
          (r.1, (copy s1 toCopy).1 ++ r.2.1, r.2.2)

/-- AsyncIOReadBuffer::read(out, len, ioInterface, resHandler): copy out
what is available; if that satisfies len, report len synchronously,
otherwise enter the asynchronous pull loop. -/
def asyncRead {σ : Type} (pull : σ → Nat → List Nat × σ) (fuel : Nat)
    (st : σ) (s : RingState) (len : Nat) : Nat × List Nat × RingState × σ :=
  let toCopy := min (occupiedBytes s) len
  if toCopy = len then
    (len, (copy s toCopy).1, (copy s toCopy).2, st)
  else
    let r := asyncReadGo pull fuel st (copy s toCopy).2 len toCopy
    (r.1, (copy s toCopy).1 ++ r.2.1, r.2.2)

/-- The list-cursor source: pulling n bytes delivers the next n bytes of
the remaining stream (fewer at the end) and drops them from the source
state. -/
def listPull : List Nat → Nat → List Nat × List Nat :=
  fun st n => (st.take n, st.drop n)

theorem pasteFromInterface_ex {σ : Type} {pull : σ → Nat → List Nat × σ}
    (st : σ) (s : RingState) (len : Nat) (hok : PullOk pull) :
    ∃ (bytes : List Nat) (st2 : σ),
      pasteFromInterface pull st s len = (bytes.length, pasteFill s bytes, st2) ∧
      bytes.length ≤ len := by
  by_cases h : len = 0
  · refine ⟨[], st, ?_, by simp⟩
    unfold pasteFromInterface
    rw [if_pos h]
    have hps : pasteFill s [] = s := by simp [pasteFill]
    rw [hps]
    rfl
  · exact ⟨(pull st len).1, (pull st len).2, by unfold pasteFromInterface; rw [if_neg h],
      hok st len⟩

theorem paste_sim {σ : Type} {pull : σ → Nat → List Nat × σ}
    (st : σ) (s : RingState) (hInv : InvM s) (hok : PullOk pull) :
    ∃ bytes : List Nat,
      (paste pull st s).1 = bytes.length ∧
      bytes.length ≤ freeBytes s ∧
      contents (paste pull st s).2.1 = contents s ++ bytes ∧
      InvM (paste pull st s).2.1 ∧
      occupiedBytes (paste pull st s).2.1 = occupiedBytes s + bytes.length ∧
      (paste pull st s).2.1.size = s.size := by
  by_cases hf : freeBytes s = 0
  · refine ⟨[], ?_⟩
    unfold paste
    rw [if_pos hf]
    exact ⟨rfl, by simp, by simp, hInv, by simp, rfl⟩
  · have hh := hInv.1
    have hfit1 : min (s.size - s.head) (freeBytes s) ≤ s.size - s.head :=
      Nat.min_le_left _ _
    have hfree1 : min (s.size - s.head) (freeBytes s) ≤ freeBytes s :=
      Nat.min_le_right _ _
    obtain ⟨b1, st2, heq1, hle1⟩ :=
      pasteFromInterface_ex st s (min (s.size - s.head) (freeBytes s)) hok
    obtain ⟨hpc1, hpi1, hpo1, hps1, hpt1⟩ :=
      pasteFill_sim (b := b1) hInv (by omega) (by omega)
    unfold paste
    rw [if_neg hf]
    dsimp only
    rw [heq1]
    dsimp only
    split_ifs with hcond
    · obtain ⟨hc1, hc2⟩ := hcond
      have hb1len : b1.length = min (s.size - s.head) (freeBytes s) := hc1
      have htR : min (s.size - s.head) (freeBytes s) = s.size - s.head := by
        rcases Nat.le_total (s.size - s.head) (freeBytes s) with hx | hx
        · exact Nat.min_eq_left hx
        · exfalso
          have : min (s.size - s.head) (freeBytes s) = freeBytes s :=
            Nat.min_eq_right hx
          omega
      have hhead1 : (pasteFill s b1).head = 0 := by
        have hb0 : b1.length ≠ 0 := by
          obtain ⟨hhh, -, -⟩ := hInv
          omega
        unfold pasteFill
        rw [if_neg hb0]
        show (s.head + b1.length) % s.size = 0
        rw [hb1len, htR]
        have : s.head + (s.size - s.head) = s.size := by omega
        rw [this, Nat.mod_self]
      have hfree2 : freeBytes (pasteFill s b1) = freeBytes s - b1.length := by
        unfold freeBytes
        rw [hpo1, hps1]
        have := occ_plus_len_le hInv (d := b1) (by omega)
        omega
      obtain ⟨b2, st3, heq2, hle2⟩ :=
        pasteFromInterface_ex st2 (pasteFill s b1) (freeBytes s - b1.length) hok
      obtain ⟨hqc1, hqi1, hqo1, hqs1, hqt1⟩ :=
        pasteFill_sim (b := b2) hpi1
          (by rw [hps1, hhead1]
              have hfb : freeBytes s = s.size - occupiedBytes s := rfl
              omega)
          (by rw [hfree2]; exact hle2)
      rw [heq2]
      dsimp only
      refine ⟨b1 ++ b2, ?_, ?_, ?_, hqi1, ?_, ?_⟩
      · rw [List.length_append]
      · rw [List.length_append]
        omega
      · rw [hqc1, hpc1, List.append_assoc]
      · rw [hqo1, hpo1, List.length_append]
        omega
      · rw [hqs1, hps1]
    · exact ⟨b1, rfl, by omega, hpc1, hpi1, hpo1, hps1⟩

theorem paste_productive {σ : Type} {pull : σ → Nat → List Nat × σ}
    (st : σ) (s : RingState) (hInv : InvM s) (hprod : Productive pull)
    (hfree : freeBytes s ≠ 0) : 1 ≤ (paste pull st s).1 := by
  have hh := hInv.1
  have htR : 1 ≤ min (s.size - s.head) (freeBytes s) := by omega
  have hne : min (s.size - s.head) (freeBytes s) ≠ 0 := by omega
  have hr1 : (pasteFromInterface pull st s (min (s.size - s.head) (freeBytes s))).1
      = ((pull st (min (s.size - s.head) (freeBytes s))).1).length := by
    unfold pasteFromInterface
    rw [if_neg hne]
  have hp1 : 1 ≤ (pasteFromInterface pull st s
      (min (s.size - s.head) (freeBytes s))).1 := by
    rw [hr1]
    exact hprod st _ htR
  unfold paste
  rw [if_neg hfree]
  dsimp only
  split_ifs with hcond
  · omega
  · exact hp1

theorem readSyncLoop_count {σ : Type} {pull : σ → Nat → List Nat × σ}
    (hok : PullOk pull) :
    ∀ (fuel : Nat) (st : σ) (s : RingState) (len ret : Nat),
      InvM s → ret ≤ len →
      (readSyncLoop pull fuel st s len ret).1
        = ret + ((readSyncLoop pull fuel st s len ret).2.1).length ∧
      (readSyncLoop pull fuel st s len ret).1 ≤ len ∧
      InvM (readSyncLoop pull fuel st s len ret).2.2.1 := by
  intro fuel
  induction fuel with
  | zero =>
      intro st s len ret hInv hr
      exact ⟨by simp [readSyncLoop], by simp [readSyncLoop]; omega,
        by simpa [readSyncLoop] using hInv⟩
  | succ n ih =>
      intro st s len ret hInv hr
      unfold readSyncLoop
      by_cases hlt : ret < len
      · rw [if_pos hlt]
        obtain ⟨bytes, hb1, hb2, hb3, hb4, hb5, hb6⟩ := paste_sim st s hInv hok
        by_cases hz : (paste pull st s).1 = 0
        · rw [if_pos hz]
          exact ⟨by simp, by simp; omega, hb4⟩
        · rw [if_neg hz]
          dsimp only
          have hcle : min (occupiedBytes (paste pull st s).2.1) (len - ret)
              ≤ occupiedBytes (paste pull st s).2.1 := Nat.min_le_left _ _
          obtain ⟨hco, hcc, hci, hcocc, hcs, hcb⟩ := copy_sim hb4 hcle
          have hcl : ((copy (paste pull st s).2.1
              (min (occupiedBytes (paste pull st s).2.1) (len - ret))).1).length
              = min (occupiedBytes (paste pull st s).2.1) (len - ret) := by
            rw [hco, List.length_take, contents_length (invM_invW hb4)]
            omega
          have hretle : ret + min (occupiedBytes (paste pull st s).2.1) (len - ret)
              ≤ len := by
            have := Nat.min_le_right (occupiedBytes (paste pull st s).2.1) (len - ret)
            omega
          obtain ⟨ih1, ih2, ih3⟩ := ih (paste pull st s).2.2
            (copy (paste pull st s).2.1
              (min (occupiedBytes (paste pull st s).2.1) (len - ret))).2 len
            (ret + min (occupiedBytes (paste pull st s).2.1) (len - ret)) hci hretle
          refine ⟨?_, ih2, ih3⟩
          rw [List.length_append, hcl]
          omega
      · rw [if_neg hlt]
        exact ⟨by simp, by simp; omega, hInv⟩

theorem readSyncLoop_productive {σ : Type} {pull : σ → Nat → List Nat × σ}
    (hok : PullOk pull) (hprod : Productive pull) :
    ∀ (fuel : Nat) (st : σ) (s : RingState) (len ret : Nat),
      InvM s → ret ≤ len → len - ret ≤ fuel →
      (ret = len ∨ occupiedBytes s = 0) →
      (readSyncLoop pull fuel st s len ret).1 = len := by
  intro fuel
  induction fuel with
  | zero =>
      intro st s len ret hInv hr hf hd
      have : ret = len := by omega
      simp [readSyncLoop, this]
  | succ n ih =>
      intro st s len ret hInv hr hf hd
      unfold readSyncLoop
      by_cases hlt : ret < len
      · rw [if_pos hlt]
        have hocc : occupiedBytes s = 0 := by omega
        have hfree : freeBytes s ≠ 0 := by
          unfold freeBytes
          have hh := hInv.1
          omega
        have hp1 := paste_productive st s hInv hprod hfree
        obtain ⟨bytes, hb1, hb2, hb3, hb4, hb5, hb6⟩ := paste_sim st s hInv hok
        have hz : ¬((paste pull st s).1 = 0) := by omega
        rw [if_neg hz]
        dsimp only
        have hocc1 : 1 ≤ occupiedBytes (paste pull st s).2.1 := by omega
        have hcle : min (occupiedBytes (paste pull st s).2.1) (len - ret)
            ≤ occupiedBytes (paste pull st s).2.1 := Nat.min_le_left _ _
        obtain ⟨hco, hcc, hci, hcocc, hcs, hcb⟩ := copy_sim hb4 hcle
        have htc1 : 1 ≤ min (occupiedBytes (paste pull st s).2.1) (len - ret) := by
          have := Nat.min_le_right (occupiedBytes (paste pull st s).2.1) (len - ret)
          rcases Nat.le_total (occupiedBytes (paste pull st s).2.1) (len - ret)
            with hx | hx
          · rw [Nat.min_eq_left hx]; omega
          · rw [Nat.min_eq_right hx]; omega
        have hretle : ret + min (occupiedBytes (paste pull st s).2.1) (len - ret)
            ≤ len := by
          have := Nat.min_le_right (occupiedBytes (paste pull st s).2.1) (len - ret)
          omega
        have hdisj : ret + min (occupiedBytes (paste pull st s).2.1) (len - ret) = len ∨
            occupiedBytes (copy (paste pull st s).2.1
              (min (occupiedBytes (paste pull st s).2.1) (len - ret))).2 = 0 := by
          rcases Nat.le_total (occupiedBytes (paste pull st s).2.1) (len - ret)
            with hx | hx
          · right
            rw [hcocc, Nat.min_eq_left hx]
            omega
          · left
            rw [Nat.min_eq_right hx]
            omega
        exact ih (paste pull st s).2.2
          (copy (paste pull st s).2.1
            (min (occupiedBytes (paste pull st s).2.1) (len - ret))).2 len
          (ret + min (occupiedBytes (paste pull st s).2.1) (len - ret)) hci hretle
          (by omega) hdisj
      · rw [if_neg hlt]
        have : ret = len := by omega
        simpa using this

theorem readSync_count {σ : Type} {pull : σ → Nat → List Nat × σ}
    (hok : PullOk pull) (fuel : Nat) (st : σ) (s : RingState) (len : Nat)
    (hInv : InvM s) :
    (readSync pull fuel st s len).1
      = ((readSync pull fuel st s len).2.1).length ∧
    (readSync pull fuel st s len).1 ≤ len := by
  unfold readSync
  by_cases h1 : occupiedBytes s ≥ len
  · rw [if_pos h1]
    obtain ⟨hco, -, -, -, -, -⟩ := copy_sim hInv h1
    constructor
    · dsimp only
      rw [hco, List.length_take, contents_length (invM_invW hInv)]
      omega
    · exact Nat.le_refl len
  · rw [if_neg h1]
    obtain ⟨bytes, hb1, hb2, hb3, hb4, hb5, hb6⟩ := paste_sim st s hInv hok
    by_cases hz : (paste pull st s).1 = 0
    · rw [if_pos hz]
      exact ⟨by simp, by simp⟩
    · rw [if_neg hz]
      dsimp only
      by_cases h2 : occupiedBytes (paste pull st s).2.1 ≥ len
      · rw [if_pos h2]
        obtain ⟨hco, -, -, -, -, -⟩ := copy_sim hb4 h2
        constructor
        · dsimp only
          rw [hco, List.length_take, contents_length (invM_invW hb4)]
          omega
        · exact Nat.le_refl len
      · rw [if_neg h2]
        dsimp only
        obtain ⟨hco, hcc, hci, hcocc, hcs, hcb⟩ :=
          copy_sim hb4 (Nat.le_refl (occupiedBytes (paste pull st s).2.1))
        have hcl : ((copy (paste pull st s).2.1
            (occupiedBytes (paste pull st s).2.1)).1).length
            = occupiedBytes (paste pull st s).2.1 := by
          rw [hco, List.length_take, contents_length (invM_invW hb4)]
          omega
        obtain ⟨ih1, ih2, -⟩ := readSyncLoop_count hok fuel (paste pull st s).2.2
          (copy (paste pull st s).2.1 (occupiedBytes (paste pull st s).2.1)).2 len
          (occupiedBytes (paste pull st s).2.1) hci (by omega)
        refine ⟨?_, ih2⟩
        rw [List.length_append, hcl]
        omega

theorem readSync_productive {σ : Type} {pull : σ → Nat → List Nat × σ}
    (hok : PullOk pull) (hprod : Productive pull) (fuel : Nat) (st : σ)
    (s : RingState) (len : Nat) (hInv : InvM s)
    (hnf : occupiedBytes s < s.size) (hfuel : len ≤ fuel) :
    (readSync pull fuel st s len).1 = len := by
  unfold readSync
  by_cases h1 : occupiedBytes s ≥ len
  · rw [if_pos h1]
  · rw [if_neg h1]
    have hfree : freeBytes s ≠ 0 := by
      unfold freeBytes
      omega
    have hp1 := paste_productive st s hInv hprod hfree
    have hz : ¬((paste pull st s).1 = 0) := by omega
    rw [if_neg hz]
    dsimp only
    by_cases h2 : occupiedBytes (paste pull st s).2.1 ≥ len
    · rw [if_pos h2]
    · rw [if_neg h2]
      dsimp only
      obtain ⟨hco, hcc, hci, hcocc, hcs, hcb⟩ :=
        copy_sim (paste_sim st s hInv hok).choose_spec.2.2.2.1
          (Nat.le_refl (occupiedBytes (paste pull st s).2.1))
      exact readSyncLoop_productive hok hprod fuel (paste pull st s).2.2
        (copy (paste pull st s).2.1 (occupiedBytes (paste pull st s).2.1)).2 len
        (occupiedBytes (paste pull st s).2.1) hci (by omega) (by omega)
        (Or.inr (by omega))

theorem asyncReadGo_count {σ : Type} {pull : σ → Nat → List Nat × σ}
    (hok : PullOk pull) :
    ∀ (fuel : Nat) (st : σ) (s : RingState) (totalRequired totalRead : Nat),
      InvM s → totalRead ≤ totalRequired →
      (asyncReadGo pull fuel st s totalRequired totalRead).1
        = totalRead
          + ((asyncReadGo pull fuel st s totalRequired totalRead).2.1).length ∧
      (asyncReadGo pull fuel st s totalRequired totalRead).1 ≤ totalRequired := by
  intro fuel
  induction fuel with
  | zero =>
      intro st s tq tr hInv htr
      exact ⟨by simp [asyncReadGo], by simpa [asyncReadGo] using htr⟩
  | succ n ih =>
      intro st s tq tr hInv htr
      unfold asyncReadGo
      dsimp only
      by_cases hz : ((pull st (min (freeBytes s) (s.size - s.head))).1).length = 0
      · rw [if_pos hz]
        exact ⟨by simp, htr⟩
      · rw [if_neg hz]
        have hfit : ((pull st (min (freeBytes s) (s.size - s.head))).1).length
            ≤ s.size - s.head := by
          have := hok st (min (freeBytes s) (s.size - s.head))
          have := Nat.min_le_right (freeBytes s) (s.size - s.head)
          omega
        have hfr : ((pull st (min (freeBytes s) (s.size - s.head))).1).length
            ≤ freeBytes s := by
          have := hok st (min (freeBytes s) (s.size - s.head))
          have := Nat.min_le_left (freeBytes s) (s.size - s.head)
          omega
        obtain ⟨hp1, hp2, hp3, hp4, hp5⟩ := pasteFill_sim hInv hfit hfr
        have hcle : min (tq - tr)
            (occupiedBytes (pasteFill s (pull st
              (min (freeBytes s) (s.size - s.head))).1))
            ≤ occupiedBytes (pasteFill s (pull st
              (min (freeBytes s) (s.size - s.head))).1) := Nat.min_le_right _ _
        obtain ⟨hco, hcc, hci, hcocc, hcs, hcb⟩ := copy_sim hp2 hcle
        have hcl : ((copy (pasteFill s (pull st
            (min (freeBytes s) (s.size - s.head))).1)
            (min (tq - tr) (occupiedBytes (pasteFill s (pull st
              (min (freeBytes s) (s.size - s.head))).1)))).1).length
            = min (tq - tr) (occupiedBytes (pasteFill s (pull st
              (min (freeBytes s) (s.size - s.head))).1)) := by
          rw [hco, List.length_take, contents_length (invM_invW hp2)]
          omega
        by_cases hdone : tq - tr - min (tq - tr)
            (occupiedBytes (pasteFill s (pull st
              (min (freeBytes s) (s.size - s.head))).1)) = 0
        · rw [if_pos hdone]
          have hmle := Nat.min_le_left (tq - tr)
            (occupiedBytes (pasteFill s (pull st
              (min (freeBytes s) (s.size - s.head))).1))
          refine ⟨?_, Nat.le_refl tq⟩
          dsimp only
          rw [hcl]
          omega
        · rw [if_neg hdone]
          dsimp only
          have hmle := Nat.min_le_left (tq - tr)
            (occupiedBytes (pasteFill s (pull st
              (min (freeBytes s) (s.size - s.head))).1))
          obtain ⟨ih1, ih2⟩ := ih (pull st (min (freeBytes s) (s.size - s.head))).2
            (copy (pasteFill s (pull st (min (freeBytes s) (s.size - s.head))).1)
              (min (tq - tr) (occupiedBytes (pasteFill s (pull st
                (min (freeBytes s) (s.size - s.head))).1)))).2 tq
            (tr + min (tq - tr) (occupiedBytes (pasteFill s (pull st
              (min (freeBytes s) (s.size - s.head))).1))) hci (by omega)
          refine ⟨?_, ih2⟩
          rw [List.length_append, hcl]
          omega

theorem asyncReadGo_productive {σ : Type} {pull : σ → Nat → List Nat × σ}
    (hok : PullOk pull) (hprod : Productive pull) :
    ∀ (fuel : Nat) (st : σ) (s : RingState) (totalRequired totalRead : Nat),
      InvM s → occupiedBytes s = 0 → totalRead < totalRequired →
      totalRequired - totalRead ≤ fuel →
      (asyncReadGo pull fuel st s totalRequired totalRead).1 = totalRequired := by
  intro fuel
  induction fuel with
  | zero =>
      intro st s tq tr hInv hocc htr hf
      omega
  | succ n ih =>
      intro st s tq tr hInv hocc htr hf
      unfold asyncReadGo
      dsimp only
      have hh := hInv.1
      have hto : 1 ≤ min (freeBytes s) (s.size - s.head) := by
        unfold freeBytes
        omega
      have hb1 := hprod st (min (freeBytes s) (s.size - s.head)) hto
      have hz : ¬(((pull st (min (freeBytes s) (s.size - s.head))).1).length = 0) := by
        omega
      rw [if_neg hz]
      have hfit : ((pull st (min (freeBytes s) (s.size - s.head))).1).length
          ≤ s.size - s.head := by
        have := hok st (min (freeBytes s) (s.size - s.head))
        have := Nat.min_le_right (freeBytes s) (s.size - s.head)
        omega
      have hfr : ((pull st (min (freeBytes s) (s.size - s.head))).1).length
          ≤ freeBytes s := by
        have := hok st (min (freeBytes s) (s.size - s.head))
        have := Nat.min_le_left (freeBytes s) (s.size - s.head)
        omega
      obtain ⟨hp1, hp2, hp3, hp4, hp5⟩ := pasteFill_sim hInv hfit hfr
      have hcle : min (tq - tr)
          (occupiedBytes (pasteFill s (pull st
            (min (freeBytes s) (s.size - s.head))).1))
          ≤ occupiedBytes (pasteFill s (pull st
            (min (freeBytes s) (s.size - s.head))).1) := Nat.min_le_right _ _
      obtain ⟨hco, hcc, hci, hcocc, hcs, hcb⟩ := copy_sim hp2 hcle
      by_cases hdone : tq - tr - min (tq - tr)
          (occupiedBytes (pasteFill s (pull st
            (min (freeBytes s) (s.size - s.head))).1)) = 0
      · rw [if_pos hdone]
      · rw [if_neg hdone]
        dsimp only
        have hmin : min (tq - tr)
            (occupiedBytes (pasteFill s (pull st
              (min (freeBytes s) (s.size - s.head))).1))
            = occupiedBytes (pasteFill s (pull st
              (min (freeBytes s) (s.size - s.head))).1) := by
          rcases Nat.le_total (tq - tr)
            (occupiedBytes (pasteFill s (pull st
              (min (freeBytes s) (s.size - s.head))).1)) with hx | hx
          · exfalso
            rw [Nat.min_eq_left hx] at hdone
            omega
          · exact Nat.min_eq_right hx
        have htc1 : 1 ≤ min (tq - tr)
            (occupiedBytes (pasteFill s (pull st
              (min (freeBytes s) (s.size - s.head))).1)) := by
          rw [hmin]
          omega
        have hmle := Nat.min_le_left (tq - tr)
          (occupiedBytes (pasteFill s (pull st
            (min (freeBytes s) (s.size - s.head))).1))
        exact ih (pull st (min (freeBytes s) (s.size - s.head))).2
          (copy (pasteFill s (pull st (min (freeBytes s) (s.size - s.head))).1)
            (min (tq - tr) (occupiedBytes (pasteFill s (pull st
              (min (freeBytes s) (s.size - s.head))).1)))).2 tq
          (tr + min (tq - tr) (occupiedBytes (pasteFill s (pull st
            (min (freeBytes s) (s.size - s.head))).1))) hci
          (by rw [hcocc, hmin]; omega) (by omega) (by omega)

theorem asyncRead_count {σ : Type} {pull : σ → Nat → List Nat × σ}
    (hok : PullOk pull) (fuel : Nat) (st : σ) (s : RingState) (len : Nat)
    (hInv : InvM s) :
    (asyncRead pull fuel st s len).1
      = ((asyncRead pull fuel st s len).2.1).length ∧
    (asyncRead pull fuel st s len).1 ≤ len := by
  unfold asyncRead
  dsimp only
  have hcle : min (occupiedBytes s) len ≤ occupiedBytes s := Nat.min_le_left _ _
  obtain ⟨hco, hcc, hci, hcocc, hcs, hcb⟩ := copy_sim hInv hcle
  have hcl : ((copy s (min (occupiedBytes s) len)).1).length
      = min (occupiedBytes s) len := by
    rw [hco, List.length_take, contents_length (invM_invW hInv)]
    omega
  by_cases hdone : min (occupiedBytes s) len = len
  · rw [if_pos hdone]
    constructor
    · dsimp only
      rw [hcl, hdone]
    · exact Nat.le_refl len
  · rw [if_neg hdone]
    dsimp only
    have hmle := Nat.min_le_right (occupiedBytes s) len
    obtain ⟨ih1, ih2⟩ := asyncReadGo_count hok fuel st
      (copy s (min (occupiedBytes s) len)).2 len (min (occupiedBytes s) len)
      hci hmle
    refine ⟨?_, ih2⟩
    rw [List.length_append, hcl]
    omega

theorem asyncRead_productive {σ : Type} {pull : σ → Nat → List Nat × σ}
    (hok : PullOk pull) (hprod : Productive pull) (fuel : Nat) (st : σ)
    (s : RingState) (len : Nat) (hInv : InvM s) (hfuel : len ≤ fuel) :
    (asyncRead pull fuel st s len).1 = len := by
  unfold asyncRead
  dsimp only
  have hcle : min (occupiedBytes s) len ≤ occupiedBytes s := Nat.min_le_left _ _
  obtain ⟨hco, hcc, hci, hcocc, hcs, hcb⟩ := copy_sim hInv hcle
  by_cases hdone : min (occupiedBytes s) len = len
  · rw [if_pos hdone]
  · rw [if_neg hdone]
    dsimp only
    have hlt : occupiedBytes s < len := by
      rcases Nat.le_total (occupiedBytes s) len with hx | hx
      · rcases Nat.lt_or_ge (occupiedBytes s) len with hy | hy
        · exact hy
        · exfalso
          exact hdone (by omega)
      · exfalso
        exact hdone (Nat.min_eq_right hx)
    have hmin : min (occupiedBytes s) len = occupiedBytes s :=
      Nat.min_eq_left (by omega)
    exact asyncReadGo_productive hok hprod fuel st
      (copy s (min (occupiedBytes s) len)).2 len (min (occupiedBytes s) len)
      hci (by rw [hcocc, hmin]; omega) (by omega) (by omega)

/-- The memoryless always-full source: every request for n bytes is served
with exactly n zero bytes. -/
def conPull : Unit → Nat → List Nat × Unit :=
  fun _ n => (List.replicate n 0, ())

theorem listPull_ok : PullOk listPull := by
  intro st n
  simp [listPull]

theorem conPull_ok : PullOk conPull := by
  intro st n
  simp [conPull]

theorem conPull_productive : Productive conPull := by
  intro st n h
  simpa [conPull] using h

/-- C4: for the synchronous read engine (SyncIOReadBuffer::read) and the
asynchronous read engine (AsyncIOReadBuffer::read / onReadFromInterface),
the reported count always equals the number of bytes actually delivered
to the caller and never exceeds the request; and against a source that
never returns zero bytes for a nonzero request (no exhaustion), the
reported count equals the full request len, for every request and every
well-formed starting ring that is not already full (the state every
public operation leaves behind). -/
theorem c4_read_count_or_exhaustion {σ : Type}
    (pull : σ → Nat → List Nat × σ) (fuel : Nat) (st : σ) (s : RingState)
    (len : Nat) (hok : PullOk pull) (hInv : InvM s) :
    ((readSync pull fuel st s len).1
        = ((readSync pull fuel st s len).2.1).length ∧
      (readSync pull fuel st s len).1 ≤ len) ∧
    ((asyncRead pull fuel st s len).1
        = ((asyncRead pull fuel st s len).2.1).length ∧
      (asyncRead pull fuel st s len).1 ≤ len) ∧
    (Productive pull → occupiedBytes s < s.size → len ≤ fuel →
      (readSync pull fuel st s len).1 = len) ∧
    (Productive pull → len ≤ fuel →
      (asyncRead pull fuel st s len).1 = len) :=
  ⟨readSync_count hok fuel st s len hInv,
   asyncRead_count hok fuel st s len hInv,
   fun hprod hnf hfuel => readSync_productive hok hprod fuel st s len hInv hnf hfuel,
   fun hprod hfuel => asyncRead_productive hok hprod fuel st s len hInv hfuel⟩

theorem c4_witness :
    PullOk conPull ∧ InvM (initState 3) ∧
    (readSync conPull 7 () (initState 3) 7).1 = 7 ∧
    (asyncRead conPull 7 () (initState 3) 7).1 = 7 ∧
    (readSync listPull 10 [72, 101, 108, 108, 111] (initState 3) 10).1
      = ((readSync listPull 10 [72, 101, 108, 108, 111]
          (initState 3) 10).2.1).length :=
  ⟨conPull_ok, initState_invM (by decide),
   (c4_read_count_or_exhaustion conPull 7 () (initState 3) 7 conPull_ok
      (initState_invM (by decide))).2.2.1 conPull_productive (by decide) (by decide),
   (c4_read_count_or_exhaustion conPull 7 () (initState 3) 7 conPull_ok
      (initState_invM (by decide))).2.2.2 conPull_productive (by decide),
   (c4_read_count_or_exhaustion listPull 10 [72, 101, 108, 108, 111]
      (initState 3) 10 listPull_ok (initState_invM (by decide))).1.1⟩

/-- The for loop of SyncIOReadBuffer::findLengthTill: advance offset while
it is below the occupied count and the byte at (tail + offset) mod size
differs from the ender.  The fuel bounds the iteration count;
occupiedBytes s iterations always suffice. -/
def findScanGo (s : RingState) (ender : Nat) : Nat → Nat → Nat
  | 0, offset => offset
  | fuel+1, offset =>
      if offset < occupiedBytes s ∧
          ¬(s.buf.getD ((s.tail + offset) % s.size) 0 = ender)
      then findScanGo s ender fuel (offset + 1)
      else offset

/-- SyncIOReadBuffer::findLengthTill(ender): the length of the occupied
region up to and including the first occurrence of ender, none when no
occupied byte equals ender. -/
def findLengthTill (s : RingState) (ender : Nat) : Option Nat :=
  if findScanGo s ender (occupiedBytes s) 0 < occupiedBytes s
  then some (findScanGo s ender (occupiedBytes s) 0 + 1)
  else none

/-- Result of the readUntil sourcing loop: bytes served so far, bytes
emitted by the loop, ring state, source state, and the pending
findLengthTill result at loop exit. -/
structure UntilRes (σ : Type) where
  ret : Nat
  outs : List Nat
  ring : RingState
  src : σ
  found : Option Nat

/-- The do-while loop of SyncIOReadBuffer::readUntil: drain everything
occupied to the destination, then refill from the source; the loop exits
when the refill returns zero bytes (found stays none) or the refilled
region holds the ender (found holds the inclusive length). -/
def untilLoop {σ : Type} (pull : σ → Nat → List Nat × σ) (ender : Nat) :
    Nat → σ → RingState → Nat → UntilRes σ
  | 0, st, s, ret => ⟨ret, [], s, st, none⟩
  | fuel+1, st, s, ret =>
      let occB := occupiedBytes s
      let s1 := (copy s occB).2
      if (paste pull st s1).1 ≠ 0 then
        match findLengthTill (paste pull st s1).2.1 ender with
        | some l =>
            ⟨ret + occB, (copy s occB).1, (paste pull st s1).2.1,
             (paste pull st s1).2.2, some l⟩
        | none =>
            let r := untilLoop pull ender fuel (paste pull st s1).2.2
              (paste pull st s1).2.1 (ret + occB)
            ⟨r.ret, (copy s occB).1 ++ r.outs, r.ring, r.src, r.found⟩
      else
        ⟨ret + occB, (copy s occB).1, (paste pull st s1).2.1,
         (paste pull st s1).2.2, none⟩

/-- SyncIOReadBuffer::readUntil(out, ioInterface, ender): refill when the
ring is empty; when bytes are available, serve through the first ender if
the ring already holds one, otherwise drain-and-refill in the do-while
loop and serve through the ender found by the last refill (or everything
drained, at source exhaustion). -/
def readUntil {σ : Type} (pull : σ → Nat → List Nat × σ) (fuel : Nat)
    (st : σ) (s : RingState) (ender : Nat) : Nat × List Nat × RingState × σ :=
  let first := if occupiedBytes s = 0 then paste pull st s
               else (occupiedBytes s, s, st)
  if first.1 = 0 then (0, [], first.2.1, first.2.2)
  else
    match findLengthTill first.2.1 ender with
    | some l => (l, (copy first.2.1 l).1, (copy first.2.1 l).2, first.2.2)
    | none =>
        let r := untilLoop pull ender fuel first.2.2 first.2.1 0
        match r.found with
        | some l =>
            (r.ret + l, r.outs ++ (copy r.ring l).1, (copy r.ring l).2, r.src)
        | none => (r.ret, r.outs, r.ring, r.src)

theorem findScanGo_none (s : RingState) (ender : Nat) :
    ∀ (fuel offset : Nat), offset ≤ occupiedBytes s →
      occupiedBytes s - offset ≤ fuel →
      (∀ i, offset ≤ i → i < occupiedBytes s →
        s.buf.getD ((s.tail + i) % s.size) 0 ≠ ender) →
      findScanGo s ender fuel offset = occupiedBytes s := by
  intro fuel
  induction fuel with
  | zero =>
      intro offset h1 h2 h3
      have : offset = occupiedBytes s := by omega
      simpa [findScanGo] using this
  | succ n ih =>
      intro offset h1 h2 h3
      unfold findScanGo
      by_cases hlt : offset < occupiedBytes s
      · rw [if_pos ⟨hlt, h3 offset (Nat.le_refl offset) hlt⟩]
        exact ih (offset + 1) (by omega) (by omega)
          (fun i hi1 hi2 => h3 i (by omega) hi2)
      · have : offset = occupiedBytes s := by omega
        rw [if_neg (by intro hc; exact hlt hc.1)]
        exact this

theorem findScanGo_found (s : RingState) (ender q : Nat)
    (hq : q < occupiedBytes s)
    (hqv : s.buf.getD ((s.tail + q) % s.size) 0 = ender) :
    ∀ (fuel offset : Nat), offset ≤ q → q - offset < fuel →
      (∀ i, offset ≤ i → i < q →
        s.buf.getD ((s.tail + i) % s.size) 0 ≠ ender) →
      findScanGo s ender fuel offset = q := by
  intro fuel
  induction fuel with
  | zero =>
      intro offset h1 h2 h3
      omega
  | succ n ih =>
      intro offset h1 h2 h3
      unfold findScanGo
      by_cases heq : offset = q
      · rw [if_neg (by intro hc; exact hc.2 (heq ▸ hqv))]
        exact heq
      · have hlt : offset < q := by omega
        rw [if_pos ⟨by omega, h3 offset (Nat.le_refl offset) hlt⟩]
        exact ih (offset + 1) (by omega) (by omega)
          (fun i hi1 hi2 => h3 i (by omega) hi2)

/-- The byte the scan inspects at offset i is the i-th byte of the FIFO
contents, for i within the occupied region. -/
theorem scan_byte_eq_contents {s : RingState} (hW : InvW s) {i : Nat}
    (hi : i < occupiedBytes s) :
    (contents s)[i]? = some (s.buf.getD ((s.tail + i) % s.size) 0) := by
  rw [contents_getElem hW hi]
  obtain ⟨hh, ht, hL⟩ := hW
  have hocc := occupiedBytes_le_size ⟨hh, ht, hL⟩
  have hsz : 1 ≤ s.size := by
    by_cases h0 : s.size = 0
    · exfalso
      have ht0 : s.tail = 0 := by omega
      have hh0 : s.head = 0 := by omega
      unfold occupiedBytes at hi
      rw [ht0, hh0, if_pos rfl] at hi
      split at hi <;> omega
    · omega
  have hidx : (s.tail + i) % s.size < s.buf.length := by
    rw [hL]
    exact Nat.mod_lt _ (by omega)
  rw [List.getElem?_eq_getElem hidx, List.getD_eq_getElem?_getD,
    List.getElem?_eq_getElem hidx]
  rfl

theorem findLengthTill_none {s : RingState} {ender : Nat} (hW : InvW s)
    (h : ∀ i, i < occupiedBytes s → (contents s)[i]? ≠ some ender) :
    findLengthTill s ender = none := by
  unfold findLengthTill
  rw [findScanGo_none s ender (occupiedBytes s) 0 (Nat.zero_le _)
    (by omega) ?hbytes]
  · simp
  case hbytes =>
    intro i hi1 hi2 hv
    exact h i hi2 (by rw [scan_byte_eq_contents hW hi2, hv])

theorem findLengthTill_found {s : RingState} {ender q : Nat} (hW : InvW s)
    (hq : (contents s)[q]? = some ender)
    (hfirst : ∀ i, i < q → (contents s)[i]? ≠ some ender) :
    findLengthTill s ender = some (q + 1) := by
  have hqocc : q < occupiedBytes s := by
    by_contra hge
    have : (contents s)[q]? = none := by
      rw [List.getElem?_eq_none]
      rw [contents_length hW]
      omega
    rw [this] at hq
    exact Option.noConfusion hq
  have hqv : s.buf.getD ((s.tail + q) % s.size) 0 = ender := by
    have := scan_byte_eq_contents hW hqocc
    rw [hq] at this
    exact (Option.some.injEq _ _).mp this.symm
  unfold findLengthTill
  rw [findScanGo_found s ender q hqocc hqv (occupiedBytes s) 0 (Nat.zero_le _)
    (by omega) ?hbytes]
  · rw [if_pos hqocc]
  case hbytes =>
    intro i hi1 hi2 hv
    exact hfirst i hi2 (by rw [scan_byte_eq_contents hW (by omega), hv])

/-- From a drained ring (cursors reset to 0), one paste against the list
source pulls a single run of up to capacity bytes off the front of the
remaining stream. -/
theorem paste_from_drained (rest : List Nat) (s : RingState)
    (hhead : s.head = 0) (hocc : occupiedBytes s = 0) (hsz : 1 ≤ s.size) :
    paste listPull rest s
      = ((rest.take s.size).length, pasteFill s (rest.take s.size),
         rest.drop s.size) := by
  have hfree : freeBytes s = s.size := by
    unfold freeBytes
    omega
  have htr : min (s.size - s.head) (freeBytes s) = s.size := by
    rw [hhead, hfree]
    simp
  have hpi : pasteFromInterface listPull rest s s.size
      = ((rest.take s.size).length, pasteFill s (rest.take s.size),
         rest.drop s.size) := by
    unfold pasteFromInterface
    rw [if_neg (by omega)]
    rfl
  have hcond : ¬(((rest.take s.size).length = s.size) ∧
      freeBytes s - (rest.take s.size).length ≠ 0) := by
    rintro ⟨h1, h2⟩
    rw [hfree, h1] at h2
    omega
  unfold paste
  rw [if_neg (by rw [hfree]; omega)]
  dsimp only
  rw [htr, hpi]
  dsimp only
  rw [if_neg hcond]

theorem untilLoop_spec (stream : List Nat) (ender p : Nat)
    (hp : stream[p]? = some ender)
    (hfirst : ∀ i, i < p → stream[i]? ≠ some ender) :
    ∀ (fuel ret k : Nat) (s : RingState),
      ret < k → k ≤ p → InvM s →
      occupiedBytes s = k - ret →
      contents s = (stream.drop ret).take (k - ret) →
      p + 1 - k ≤ fuel →
      ∃ k2, k ≤ k2 ∧ k2 ≤ p ∧
        (untilLoop listPull ender fuel (stream.drop k) s ret).ret = k2 ∧
        (untilLoop listPull ender fuel (stream.drop k) s ret).found
          = some (p - k2 + 1) ∧
        (untilLoop listPull ender fuel (stream.drop k) s ret).outs
          = (stream.drop ret).take (k2 - ret) ∧
        InvM (untilLoop listPull ender fuel (stream.drop k) s ret).ring ∧
        contents (untilLoop listPull ender fuel (stream.drop k) s ret).ring
          = (stream.drop k2).take
            (occupiedBytes (untilLoop listPull ender fuel
              (stream.drop k) s ret).ring) ∧
        p - k2 < occupiedBytes (untilLoop listPull ender fuel
          (stream.drop k) s ret).ring := by
  have hpL : p < stream.length := by
    by_contra hge
    rw [List.getElem?_eq_none (by omega)] at hp
    exact Option.noConfusion hp
  intro fuel
  induction fuel with
  | zero =>
      intro ret k s h1 h2 hInv hocc hcont hfuel
      omega
  | succ n ih =>
      intro ret k s h1 h2 hInv hocc hcont hfuel
      have hW1 : 1 ≤ s.size := by
        have := hInv.1
        omega
      have hoccne : occupiedBytes s ≠ 0 := by omega
      obtain ⟨hco, hcc, hci, hcocc, hcs, hcb⟩ :=
        copy_sim hInv (Nat.le_refl (occupiedBytes s))
      obtain ⟨hch, hct⟩ := copy_drain_cursors hInv hoccne rfl
      have hout1 : (copy s (occupiedBytes s)).1 = contents s := by
        rw [hco]
        exact List.take_of_length_le
          (by rw [contents_length (invM_invW hInv)])
      have hocc1 : occupiedBytes (copy s (occupiedBytes s)).2 = 0 := by
        omega
      have hpaste := paste_from_drained (stream.drop k)
        (copy s (occupiedBytes s)).2 hch hocc1 (by omega)
      have hm : ((stream.drop k).take (copy s (occupiedBytes s)).2.size).length
          = min s.size (stream.length - k) := by
        rw [List.length_take, List.length_drop, hcs]
      have hmle : ((stream.drop k).take
          (copy s (occupiedBytes s)).2.size).length ≤ s.size := by
        rw [hm]
        exact Nat.min_le_left _ _
      have hmge : 1 ≤ ((stream.drop k).take
          (copy s (occupiedBytes s)).2.size).length := by
        rw [hm]
        rcases Nat.le_total s.size (stream.length - k) with hx | hx
        · rw [Nat.min_eq_left hx]
          omega
        · rw [Nat.min_eq_right hx]
          omega
      obtain ⟨hq1, hq2, hq3, hq4, hq5⟩ := pasteFill_sim
        (s := (copy s (occupiedBytes s)).2)
        (b := (stream.drop k).take (copy s (occupiedBytes s)).2.size)
        hci
        (by rw [hch, hcs, List.length_take, List.length_drop]
            have := Nat.min_le_left s.size (stream.length - k)
            omega)
        (by unfold freeBytes
            rw [hcs, List.length_take, List.length_drop]
            have := Nat.min_le_left s.size (stream.length - k)
            omega)
      have hcont2 : contents (pasteFill (copy s (occupiedBytes s)).2
          ((stream.drop k).take (copy s (occupiedBytes s)).2.size))
          = (stream.drop k).take s.size := by
        rw [hq1, contents_nil hocc1, List.nil_append, hcs]
      have hocc2 : occupiedBytes (pasteFill (copy s (occupiedBytes s)).2
          ((stream.drop k).take (copy s (occupiedBytes s)).2.size))
          = min s.size (stream.length - k) := by
        rw [hq3, hocc1, hm]
        omega
      have helem : ∀ i, i < min s.size (stream.length - k) →
          (contents (pasteFill (copy s (occupiedBytes s)).2
            ((stream.drop k).take (copy s (occupiedBytes s)).2.size)))[i]?
            = stream[k + i]? := by
        intro i hi
        rw [hcont2, List.getElem?_take_of_lt
          (by have := Nat.min_le_left s.size (stream.length - k); omega),
          List.getElem?_drop]
      unfold untilLoop
      dsimp only
      rw [hpaste]
      dsimp only
      rw [if_pos (by omega)]
      by_cases hcase : p < k + min s.size (stream.length - k)
      · have hfound : findLengthTill (pasteFill (copy s (occupiedBytes s)).2
            ((stream.drop k).take (copy s (occupiedBytes s)).2.size)) ender
            = some ((p - k) + 1) := by
          apply findLengthTill_found (invM_invW hq2)
          · rw [helem (p - k) (by omega)]
            rw [show k + (p - k) = p from by omega]
            exact hp
          · intro i hi hv
            rw [helem i (by omega)] at hv
            exact hfirst (k + i) (by omega) hv
        rw [hfound]
        dsimp only
        refine ⟨k, Nat.le_refl k, h2, by omega, rfl, ?_, hq2, ?_, ?_⟩
        · rw [hout1, hcont]
        · rw [hcont2, hocc2]
          rcases Nat.le_total s.size (stream.length - k) with hx | hx
          · rw [Nat.min_eq_left hx]
          · rw [Nat.min_eq_right hx,
              List.take_of_length_le (by rw [List.length_drop]; omega),
              List.take_of_length_le (by rw [List.length_drop])]
        · rw [hocc2]
          omega
      · have hmW : min s.size (stream.length - k) = s.size := by
          rcases Nat.le_total s.size (stream.length - k) with hx | hx
          · exact Nat.min_eq_left hx
          · exfalso
            rw [Nat.min_eq_right hx] at hcase
            omega
        have hkW : k + s.size ≤ p := by omega
        have hnone : findLengthTill (pasteFill (copy s (occupiedBytes s)).2
            ((stream.drop k).take (copy s (occupiedBytes s)).2.size)) ender
            = none := by
          apply findLengthTill_none (invM_invW hq2)
          intro i hi hv
          rw [hocc2] at hi
          rw [helem i hi] at hv
          exact hfirst (k + i) (by omega) hv
        rw [hnone]
        dsimp only
        have hdd : (stream.drop k).drop (copy s (occupiedBytes s)).2.size
            = stream.drop (k + s.size) := by
          rw [hcs, List.drop_drop, Nat.add_comm]
        have hretk : ret + occupiedBytes s = k := by omega
        rw [hdd, hretk]
        obtain ⟨k2, ha1, ha2, ha3, ha4, ha5, ha6, ha7, ha8⟩ :=
          ih k (k + s.size)
            (pasteFill (copy s (occupiedBytes s)).2
              ((stream.drop k).take (copy s (occupiedBytes s)).2.size))
            (by omega) hkW hq2 (by rw [hocc2, hmW]; omega)
            (by rw [hcont2]; rw [show k + s.size - k = s.size from by omega])
            (by omega)
        refine ⟨k2, by omega, ha2, ha3, ha4, ?_, ha6, ha7, ha8⟩
        dsimp only
        rw [hout1, hcont, ha5]
        rw [show k2 - ret = (k - ret) + (k2 - k) from by omega, List.take_add]
        have hdk : (stream.drop ret).drop (k - ret) = stream.drop k := by
          rw [List.drop_drop]
          congr 1
          omega
        rw [hdk]

/-- C5: readUntil against a byte stream whose first ender occurs at
index p serves and counts exactly the stream's first p+1 bytes, i.e. the
bytes up to and including the first byte equal to ender; in particular,
the spec's concrete instance: on the stream "3\n1 2\n3 4\n5 6\n" with a
capacity-10 ring and ender the newline byte, the first call returns 2 and
the destination holds the two bytes "3\n". -/
theorem c5_readUntil_first_ender (stream : List Nat) (ender p N fuel : Nat)
    (hN : 1 ≤ N) (hp : stream[p]? = some ender)
    (hfirst : ∀ i, i < p → stream[i]? ≠ some ender)
    (hfuel : p + 1 ≤ fuel) :
    (readUntil listPull fuel stream (initState N) ender).1 = p + 1 ∧
    (readUntil listPull fuel stream (initState N) ender).2.1
      = stream.take (p + 1) := by
  have hpL : p < stream.length := by
    by_contra hge
    rw [List.getElem?_eq_none (by omega)] at hp
    exact Option.noConfusion hp
  have hInv0 : InvM (initState N) := initState_invM hN
  have hocc0 : occupiedBytes (initState N) = 0 := occupiedBytes_initState N
  have hpaste := paste_from_drained stream (initState N) rfl hocc0
    (by show 1 ≤ N; omega)
  have hsz0 : (initState N).size = N := rfl
  have hm : (stream.take (initState N).size).length = min N stream.length := by
    rw [List.length_take, hsz0]
  have hmge : 1 ≤ (stream.take (initState N).size).length := by
    rw [hm]
    rcases Nat.le_total N stream.length with hx | hx
    · rw [Nat.min_eq_left hx]
      omega
    · rw [Nat.min_eq_right hx]
      omega
  obtain ⟨hq1, hq2, hq3, hq4, hq5⟩ := pasteFill_sim
    (s := initState N) (b := stream.take (initState N).size)
    hInv0 (by rw [hm, hsz0]; show min N stream.length ≤ N - 0;
              have := Nat.min_le_left N stream.length; omega)
    (by unfold freeBytes
        rw [hm, hsz0, hocc0]
        have := Nat.min_le_left N stream.length
        omega)
  have hcont2 : contents (pasteFill (initState N)
      (stream.take (initState N).size)) = stream.take N := by
    rw [hq1, contents_nil hocc0, List.nil_append, hsz0]
  have hocc2 : occupiedBytes (pasteFill (initState N)
      (stream.take (initState N).size)) = min N stream.length := by
    rw [hq3, hocc0, hm]
    omega
  have helem : ∀ i, i < min N stream.length →
      (contents (pasteFill (initState N)
        (stream.take (initState N).size)))[i]? = stream[i]? := by
    intro i hi
    rw [hcont2, List.getElem?_take_of_lt
      (by have := Nat.min_le_left N stream.length; omega)]
  unfold readUntil
  dsimp only
  rw [if_pos hocc0, hpaste]
  dsimp only
  rw [if_neg (by omega)]
  by_cases hcase : p < min N stream.length
  · have hfound : findLengthTill (pasteFill (initState N)
        (stream.take (initState N).size)) ender = some (p + 1) := by
      apply findLengthTill_found (invM_invW hq2)
      · rw [helem p hcase]
        exact hp
      · intro i hi hv
        rw [helem i (by omega)] at hv
        exact hfirst i hi hv
    rw [hfound]
    dsimp only
    obtain ⟨hco, -, -, -, -, -⟩ := copy_sim (n := p + 1) hq2
      (by rw [hocc2]; omega)
    refine ⟨rfl, ?_⟩
    rw [hco, hcont2, List.take_take]
    rw [Nat.min_eq_left (by have := Nat.min_le_left N stream.length; omega)]
  · have hmN : min N stream.length = N := by
      rcases Nat.le_total N stream.length with hx | hx
      · exact Nat.min_eq_left hx
      · exfalso
        rw [Nat.min_eq_right hx] at hcase
        omega
    have hNp : N ≤ p := by omega
    have hnone : findLengthTill (pasteFill (initState N)
        (stream.take (initState N).size)) ender = none := by
      apply findLengthTill_none (invM_invW hq2)
      intro i hi hv
      rw [hocc2] at hi
      rw [helem i hi] at hv
      exact hfirst i (by omega) hv
    rw [hnone]
    dsimp only
    have hstN : stream.drop (initState N).size = stream.drop N := by
      rw [hsz0]
    rw [hstN]
    obtain ⟨k2, ha1, ha2, ha3, ha4, ha5, ha6, ha7, ha8⟩ :=
      untilLoop_spec stream ender p hp hfirst fuel 0 N
        (pasteFill (initState N) (stream.take (initState N).size))
        (by omega) hNp hq2 (by rw [hocc2, hmN]; omega)
        (by rw [hcont2, List.drop_zero, Nat.sub_zero])
        (by omega)
    rw [ha4]
    dsimp only
    obtain ⟨hco, -, -, -, -, -⟩ := copy_sim (n := p - k2 + 1) ha6 (by omega)
    constructor
    · rw [ha3]
      omega
    · rw [ha5, hco, ha7, List.take_take]
      rw [Nat.min_eq_left (by omega)]
      rw [List.drop_zero, Nat.sub_zero]
      conv_rhs => rw [show p + 1 = k2 + (p - k2 + 1) from by omega,
        List.take_add]

theorem c5_witness :
    (1 : Nat) ≤ 10 ∧
    ([51, 10, 49, 32, 50, 10, 51, 32, 52, 10, 53, 32, 54, 10] :
      List Nat)[1]? = some 10 ∧
    (∀ i, i < 1 → ([51, 10, 49, 32, 50, 10, 51, 32, 52, 10, 53, 32, 54, 10] :
      List Nat)[i]? ≠ some 10) ∧
    (readUntil listPull 20 [51, 10, 49, 32, 50, 10, 51, 32, 52, 10, 53, 32, 54, 10]
      (initState 10) 10).1 = 1 + 1 ∧
    (readUntil listPull 20 [51, 10, 49, 32, 50, 10, 51, 32, 52, 10, 53, 32, 54, 10]
      (initState 10) 10).2.1
      = List.take (1 + 1) [51, 10, 49, 32, 50, 10, 51, 32, 52, 10, 53, 32, 54, 10] :=
  ⟨by decide, by decide, by decide,
   (c5_readUntil_first_ender
     [51, 10, 49, 32, 50, 10, 51, 32, 52, 10, 53, 32, 54, 10] 10 1 10 20
     (by decide) (by decide) (by decide) (by decide)).1,
   (c5_readUntil_first_ender
     [51, 10, 49, 32, 50, 10, 51, 32, 52, 10, 53, 32, 54, 10] 10 1 10 20
     (by decide) (by decide) (by decide) (by decide)).2⟩

/-- One entry of AsyncIOWriteBuffer::m_pendingWriteQueue: the caller's
payload (the requested length is its length), the number of payload bytes
already placed in the ring, the number of payload bytes already reported
sent, and an identifier standing for the externally provided completion
handler. -/
structure PendReq where
  payload : List Nat
  alreadyPut : Nat
  alreadySent : Nat
  id : Nat
  deriving DecidableEq, Repr

/-- Whole-machine state of AsyncIOWriteBuffer.  Besides the ring, the
write-loop flag and the pending queue of the C++ object, it records the
interaction with the environment: the byte segment handed to the sink by
the outstanding ioInterface call (none when no call is in flight), the
bytes the sink has consumed so far, the completion-handler invocations
as (handler id, reported count) in invocation order, the next request id,
and the submitted requests as (id, payload) in submission order. -/
structure AWState where
  ring : RingState
  writeLoopOn : Bool
  queue : List PendReq
  outstanding : Option (List Nat)
  sinkOut : List Nat
  events : List (Nat × Nat)
  nextId : Nat
  submitted : List (Nat × List Nat)
  deriving DecidableEq, Repr

def initAW (n : Nat) : AWState :=
  ⟨initState n, false, [], none, [], [], 0, []⟩

/-- The segment offered to the sink by one ioInterface call: toWrite =
min(occupiedBytes, size - tail) contiguous bytes starting at the tail. -/
def issuePush (s : RingState) : List Nat :=
  (s.buf.drop s.tail).take (min (occupiedBytes s) (s.size - s.tail))

/-- AsyncIOWriteBuffer::write(out, len, resHandler): a zero-length write
invokes the handler with 0 synchronously and does nothing else; otherwise
as many payload bytes as fit are put, the request is queued, and, when no
write loop is running, the loop starts with one ioInterface call. -/
def awWrite (w : AWState) (payload : List Nat) : AWState :=
  if payload.length = 0 then
    { w with events := w.events ++ [(w.nextId, 0)], nextId := w.nextId + 1,
             submitted := w.submitted ++ [(w.nextId, payload)] }
  else
    let toPut := min payload.length (freeBytes w.ring)
    let r1 := put w.ring (payload.take toPut)
    let q1 := w.queue ++ [⟨payload, toPut, 0, w.nextId⟩]
    if w.writeLoopOn then
      { w with ring := r1, queue := q1, nextId := w.nextId + 1,
               submitted := w.submitted ++ [(w.nextId, payload)] }
    else
      { w with ring := r1, queue := q1, nextId := w.nextId + 1,
               submitted := w.submitted ++ [(w.nextId, payload)],
               writeLoopOn := true, outstanding := some (issuePush r1) }

/-- The notification loop of onWriteToInterface: credit the completed
byte count against the front requests, emitting a completion event (with
the full requested length) for each request that becomes fully sent and
popping it; a partially credited front request stays. -/
def creditBytes : Nat → List PendReq → List (Nat × Nat) × List PendReq
  | _, [] => ([], [])
  | remaining, r :: rest =>
      if remaining = 0 then ([], r :: rest)
      else
        let toIncrease := min remaining (r.payload.length - r.alreadySent)
        if r.alreadySent + toIncrease = r.payload.length then
          ((r.id, r.payload.length) ::
             (creditBytes (remaining - toIncrease) rest).1,
           (creditBytes (remaining - toIncrease) rest).2)
        else
          ([], { r with alreadySent := r.alreadySent + toIncrease } :: rest)

/-- The put-back loop of onWriteToInterface: walk the queue front to back
while free space remains, placing each request's still-unplaced payload
bytes into the ring. -/
def refill : RingState → List PendReq → RingState × List PendReq
  | s, [] => (s, [])
  | s, r :: rest =>
      if freeBytes s = 0 then (s, r :: rest)
      else
        let toPut := min (r.payload.length - r.alreadyPut) (freeBytes s)
        let s1 := put s ((r.payload.drop r.alreadyPut).take toPut)
        ((refill s1 rest).1,
         { r with alreadyPut := r.alreadyPut + toPut } :: (refill s1 rest).2)

/-- AsyncIOWriteBuffer::onWriteToInterface(bytesInThisIOCall): on a zero
count every pending handler is notified with its already-sent count and
the loop closes; otherwise the tail advances (resetting the cursors when
the ring drains), fully sent front requests are notified and popped, and
either the loop closes (queue empty) or the ring is refilled from the
queue and the next ioInterface call is issued. -/
def awComplete (w : AWState) (k : Nat) : AWState :=
  match w.outstanding with
  | none => w
  | some seg =>
      if k = 0 then
        { w with outstanding := none, writeLoopOn := false, queue := [],
                 events := w.events
                   ++ w.queue.map (fun r => (r.id, r.alreadySent)) }
      else
        let s1 := flushAdvW w.ring k
        let c := creditBytes k w.queue
        if c.2.isEmpty then
          { w with ring := s1, queue := [], events := w.events ++ c.1,
                   sinkOut := w.sinkOut ++ seg.take k,
                   outstanding := none, writeLoopOn := false }
        else
          { w with ring := (refill s1 c.2).1, queue := (refill s1 c.2).2,
                   events := w.events ++ c.1,
                   sinkOut := w.sinkOut ++ seg.take k,
                   outstanding := some (issuePush (refill s1 c.2).1) }

/-- An external action against the async write engine: the application
submits a write, or the sink completes the outstanding ioPush having
consumed k bytes of the offered segment. -/
inductive AWAct where
  | submit (payload : List Nat)
  | complete (k : Nat)
  deriving DecidableEq, Repr

def awStep (w : AWState) : AWAct → AWState
  | .submit p => awWrite w p
  | .complete k => awComplete w k

def runAW (w : AWState) : List AWAct → AWState
  | [] => w
  | a :: rest => runAW (awStep w a) rest

/-- A schedule is valid when every completion responds to an actually
outstanding ioPush and consumes no more than the offered segment. -/
def validActs (w : AWState) : List AWAct → Bool
  | [] => true
  | AWAct.submit p :: rest => validActs (awStep w (AWAct.submit p)) rest
  | AWAct.complete k :: rest =>
      (match w.outstanding with
       | some seg => decide (k ≤ seg.length)
       | none => false)
      && validActs (awStep w (AWAct.complete k)) rest

/-- Schedules with no zero-length submission and no sink exhaustion. -/
def actsLive : List AWAct → Bool
  | [] => true
  | AWAct.submit p :: rest => decide (p.length ≠ 0) && actsLive rest
  | AWAct.complete k :: rest => decide (k ≠ 0) && actsLive rest

/-- The portion of a pending request's payload currently in the ring:
placed but not yet sent. -/
def ringSeg (r : PendReq) : List Nat :=
  (r.payload.take r.alreadyPut).drop r.alreadySent

/-- The portion of a pending request's payload not yet sent. -/
def residue (r : PendReq) : List Nat :=
  r.payload.drop r.alreadySent

/-- Per-entry sanity of a queued request: sent within placed, placed
within the payload, and the request not yet complete. -/
def ReqOk (r : PendReq) : Prop :=
  r.alreadySent ≤ r.alreadyPut ∧ r.alreadyPut ≤ r.payload.length ∧
  r.alreadySent < r.payload.length

/-- The queue places bytes front first: any entry behind one that is not
fully placed has nothing placed at all. -/
def FrontLoaded (q : List PendReq) : Prop :=
  List.Pairwise
    (fun a b => a.alreadyPut < a.payload.length → b.alreadyPut = 0) q

theorem ringSeg_length {r : PendReq} (h : ReqOk r) :
    (ringSeg r).length = r.alreadyPut - r.alreadySent := by
  obtain ⟨h1, h2, h3⟩ := h
  unfold ringSeg
  rw [List.length_drop, List.length_take]
  omega

theorem residue_length (r : PendReq) :
    (residue r).length = r.payload.length - r.alreadySent := by
  unfold residue
  rw [List.length_drop]

theorem ringSeg_of_untouched {r : PendReq} (hput : r.alreadyPut = 0)
    (hsent : r.alreadySent ≤ r.alreadyPut) : ringSeg r = [] := by
  unfold ringSeg
  rw [hput]
  simp

/-- Behind a not-fully-placed front entry, the ring holds no bytes of the
rest of the queue. -/
theorem flatten_ringSeg_nil {q : List PendReq}
    (hok : ∀ r ∈ q, ReqOk r) (hput : ∀ r ∈ q, r.alreadyPut = 0) :
    (q.map ringSeg).flatten = [] := by
  apply List.flatten_eq_nil_iff.mpr
  intro x hx
  rw [List.mem_map] at hx
  obtain ⟨r, hr, hrx⟩ := hx
  rw [← hrx]
  exact ringSeg_of_untouched (hput r hr) (hok r hr).1

/-- The in-ring segments are a prefix of the unsent residues: the first
bytes the sink will take are exactly the first unsent payload bytes in
queue order. -/
theorem flatten_prefix_take {q : List PendReq}
    (hok : ∀ r ∈ q, ReqOk r) (hfl : FrontLoaded q) :
    ∀ k, k ≤ ((q.map ringSeg).flatten).length →
      ((q.map residue).flatten).take k = ((q.map ringSeg).flatten).take k := by
  induction q with
  | nil => intro k hk; rfl
  | cons r rest ih =>
      intro k hk
      obtain ⟨hfr, hfrest⟩ := List.pairwise_cons.mp hfl
      obtain ⟨h1, h2, h3⟩ := hok r (List.mem_cons_self r rest)
      have hsg : (ringSeg r).length = r.alreadyPut - r.alreadySent :=
        ringSeg_length ⟨h1, h2, h3⟩
      have hres : residue r = ringSeg r ++ r.payload.drop r.alreadyPut := by
        unfold residue ringSeg
        rw [← List.drop_append_of_le_length (by rw [List.length_take]; omega),
          List.take_append_drop]
      by_cases hfull : r.alreadyPut = r.payload.length
      · have hgr : ringSeg r = residue r := by
          rw [hres, hfull]
          simp
        simp only [List.map_cons, List.flatten_cons] at hk ⊢
        rw [← hgr]
        rw [List.length_append] at hk
        rw [List.take_append_eq_append_take, List.take_append_eq_append_take]
        rw [ih (fun a ha => hok a (List.mem_cons_of_mem r ha)) hfrest
          (k - (ringSeg r).length) (by omega)]
      · have hrest0 : ∀ b ∈ rest, b.alreadyPut = 0 := by
          intro b hb
          exact hfr b hb (by omega)
        have hfrest0 : ((rest.map ringSeg).flatten) = [] :=
          flatten_ringSeg_nil (fun a ha => hok a (List.mem_cons_of_mem r ha))
            hrest0
        simp only [List.map_cons, List.flatten_cons] at hk ⊢
        rw [hfrest0, List.append_nil] at hk ⊢
        rw [List.take_append_eq_append_take]
        rw [show k - (residue r).length = 0 from by
          rw [residue_length]; omega]
        rw [List.take_zero, List.append_nil, hres,
          List.take_append_eq_append_take]
        rw [show k - (ringSeg r).length = 0 from by omega]
        rw [List.take_zero, List.append_nil]

theorem issuePush_spec {s : RingState} (hInv : InvM s) :
    (issuePush s).length = min (occupiedBytes s) (s.size - s.tail) ∧
    issuePush s = (contents s).take (issuePush s).length := by
  obtain ⟨hh, ht, hL⟩ := hInv
  have hdl : (s.buf.drop s.tail).length = s.size - s.tail := by
    rw [List.length_drop, hL]
  have hlen : (issuePush s).length
      = min (occupiedBytes s) (s.size - s.tail) := by
    unfold issuePush
    rw [List.length_take, hdl]
    have := Nat.min_le_right (occupiedBytes s) (s.size - s.tail)
    omega
  refine ⟨hlen, ?_⟩
  rw [hlen]
  exact offered_prefix (invM_invW ⟨hh, ht, hL⟩)
    (Nat.min_le_left _ _) (Nat.min_le_right _ _)

theorem creditBytes_spec :
    ∀ (q : List PendReq) (k : Nat),
      (∀ r ∈ q, ReqOk r) →
      FrontLoaded q →
      (∀ r ∈ q.drop 1, r.alreadySent = 0) →
      k ≤ ((q.map ringSeg).flatten).length →
      (creditBytes k q).1.map Prod.fst ++ (creditBytes k q).2.map PendReq.id
          = q.map PendReq.id ∧
      ((creditBytes k q).2.map ringSeg).flatten
          = ((q.map ringSeg).flatten).drop k ∧
      ((creditBytes k q).2.map residue).flatten
          = ((q.map residue).flatten).drop k ∧
      (∀ r ∈ (creditBytes k q).2, ReqOk r) ∧
      FrontLoaded (creditBytes k q).2 ∧
      (∀ r ∈ (creditBytes k q).2.drop 1, r.alreadySent = 0) := by
  intro q
  induction q with
  | nil =>
      intro k hok hfl hts hk
      simp only [List.map_nil, List.flatten_nil, List.length_nil] at hk
      have hk0 : k = 0 := by omega
      subst hk0
      exact ⟨rfl, rfl, rfl, fun r hr => absurd hr (List.not_mem_nil r),
        List.Pairwise.nil, fun r hr => absurd hr (List.not_mem_nil r)⟩
  | cons r rest ih =>
      intro k hok hfl hts hk
      by_cases hk0 : k = 0
      · subst hk0
        unfold creditBytes
        rw [if_pos rfl]
        exact ⟨rfl, by rw [List.drop_zero], by rw [List.drop_zero], hok, hfl,
          hts⟩
      · obtain ⟨h1, h2, h3⟩ := hok r (List.mem_cons_self r rest)
        obtain ⟨hfr, hfrest⟩ := List.pairwise_cons.mp hfl
        have hrest0sent : ∀ b ∈ rest, b.alreadySent = 0 := hts
        have hsg : (ringSeg r).length = r.alreadyPut - r.alreadySent :=
          ringSeg_length ⟨h1, h2, h3⟩
        have hkb : r.alreadyPut < r.payload.length →
            k ≤ r.alreadyPut - r.alreadySent := by
          intro hlt
          have hrest0 : ∀ b ∈ rest, b.alreadyPut = 0 := fun b hb =>
            hfr b hb hlt
          have hnil : ((rest.map ringSeg).flatten) = [] :=
            flatten_ringSeg_nil
              (fun a ha => hok a (List.mem_cons_of_mem r ha)) hrest0
          simp only [List.map_cons, List.flatten_cons, List.length_append,
            hnil, List.length_nil] at hk
          omega
        unfold creditBytes
        rw [if_neg hk0]
        dsimp only
        by_cases hpop : r.alreadySent
            + min k (r.payload.length - r.alreadySent) = r.payload.length
        · rw [if_pos hpop]
          have hput : r.alreadyPut = r.payload.length := by
            by_contra hne
            have := hkb (by omega)
            have := Nat.min_le_left k (r.payload.length - r.alreadySent)
            omega
          have htoinc : min k (r.payload.length - r.alreadySent)
              = r.payload.length - r.alreadySent := by
            have := Nat.min_le_left k (r.payload.length - r.alreadySent)
            have := Nat.min_le_right k (r.payload.length - r.alreadySent)
            omega
          have hgr : (ringSeg r).length
              = r.payload.length - r.alreadySent := by
            rw [hsg, hput]
          simp only [List.map_cons, List.flatten_cons, List.length_append]
            at hk
          obtain ⟨ih1, ih2, ih3, ih4, ih5, ih6⟩ :=
            ih (k - min k (r.payload.length - r.alreadySent))
              (fun a ha => hok a (List.mem_cons_of_mem r ha)) hfrest
              (by intro a ha
                  exact hrest0sent a (List.mem_of_mem_drop ha))
              (by rw [htoinc]; omega)
          have hles : r.payload.length - r.alreadySent ≤ k := by
            rw [← htoinc]
            exact Nat.min_le_left _ _
          refine ⟨?_, ?_, ?_, ih4, ih5, ih6⟩
          · simp only [List.map_cons]
            rw [← ih1]
            rfl
          · rw [ih2]
            simp only [List.map_cons, List.flatten_cons]
            rw [htoinc]
            rw [List.drop_append_eq_append_drop,
              List.drop_of_length_le (l := ringSeg r)
                (show (ringSeg r).length ≤ k by rw [hgr]; omega),
              hgr, List.nil_append]
          · rw [ih3]
            simp only [List.map_cons, List.flatten_cons]
            rw [htoinc]
            rw [List.drop_append_eq_append_drop,
              List.drop_of_length_le (l := residue r)
                (show (residue r).length ≤ k by rw [residue_length]; omega),
              residue_length, List.nil_append]
        · rw [if_neg hpop]
          have htoinc : min k (r.payload.length - r.alreadySent) = k := by
            have := Nat.min_le_left k (r.payload.length - r.alreadySent)
            have := Nat.min_le_right k (r.payload.length - r.alreadySent)
            omega
          have hkput : r.alreadySent + k ≤ r.alreadyPut := by
            by_cases hfull : r.alreadyPut = r.payload.length
            · rw [htoinc] at hpop
              omega
            · have := hkb (by omega)
              omega
          rw [htoinc]
          refine ⟨rfl, ?_, ?_, ?_, ?_, ?_⟩
          · simp only [List.map_cons, List.flatten_cons]
            have hseg2 : ringSeg { r with alreadySent := r.alreadySent + k }
                = (ringSeg r).drop k := by
              unfold ringSeg
              rw [List.drop_drop, Nat.add_comm]
            rw [hseg2, List.drop_append_of_le_length (by omega)]
          · simp only [List.map_cons, List.flatten_cons]
            have hres2 : residue { r with alreadySent := r.alreadySent + k }
                = (residue r).drop k := by
              unfold residue
              rw [List.drop_drop, Nat.add_comm]
            rw [hres2, List.drop_append_of_le_length
              (by rw [residue_length]; omega)]
          · intro a ha
            rcases List.mem_cons.mp ha with he | hm
            · subst he
              refine ⟨by dsimp only; omega, h2, ?_⟩
              dsimp only
              rw [htoinc] at hpop
              omega
            · exact hok a (List.mem_cons_of_mem r hm)
          · apply List.pairwise_cons.mpr
            refine ⟨?_, hfrest⟩
            intro b hb hlt
            exact hfr b hb hlt
          · intro a ha
            exact hrest0sent a (List.mem_of_mem_drop ha)

theorem freeBytes_put {s : RingState} {d : List Nat} (hInv : InvM s)
    (hle : d.length ≤ freeBytes s) :
    freeBytes (put s d) = freeBytes s - d.length := by
  obtain ⟨hq1, hq2, hq3, hq4, hq5⟩ := put_sim hInv hle
  have e1 : freeBytes (put s d)
      = (put s d).size - occupiedBytes (put s d) := rfl
  have e2 : freeBytes s = s.size - occupiedBytes s := rfl
  omega

theorem refill_spec :
    ∀ (q : List PendReq) (s : RingState),
      InvM s →
      (∀ r ∈ q, ReqOk r) →
      FrontLoaded q →
      ∃ X : List Nat,
        InvM (refill s q).1 ∧
        (refill s q).1.size = s.size ∧
        (refill s q).1.tail = s.tail ∧
        contents (refill s q).1 = contents s ++ X ∧
        ((refill s q).2.map ringSeg).flatten
            = (q.map ringSeg).flatten ++ X ∧
        (refill s q).2.map PendReq.id = q.map PendReq.id ∧
        (refill s q).2.map residue = q.map residue ∧
        (refill s q).2.map (fun r => r.alreadySent)
            = q.map (fun r => r.alreadySent) ∧
        (∀ r ∈ (refill s q).2, ReqOk r) ∧
        FrontLoaded (refill s q).2 ∧
        (freeBytes (refill s q).1 ≠ 0 →
          ∀ r ∈ (refill s q).2, r.alreadyPut = r.payload.length) := by
  intro q
  induction q with
  | nil =>
      intro s hInv hok hfl
      have hre : refill s [] = (s, []) := rfl
      rw [hre]
      exact ⟨[], hInv, rfl, rfl,
        by show contents s = contents s ++ []; rw [List.append_nil],
        by simp, rfl, rfl, rfl, fun r hr => absurd hr (List.not_mem_nil r),
        List.Pairwise.nil, fun hf r hr => absurd hr (List.not_mem_nil r)⟩
  | cons r rest ih =>
      intro s hInv hok hfl
      obtain ⟨h1, h2, h3⟩ := hok r (List.mem_cons_self r rest)
      obtain ⟨hfr, hfrest⟩ := List.pairwise_cons.mp hfl
      by_cases hfz : freeBytes s = 0
      · have hre : refill s (r :: rest) = (s, r :: rest) := by
          unfold refill
          rw [if_pos hfz]
        rw [hre]
        exact ⟨[], hInv, rfl, rfl,
          by show contents s = contents s ++ []; rw [List.append_nil],
          by show ((r :: rest).map ringSeg).flatten
              = ((r :: rest).map ringSeg).flatten ++ []
             rw [List.append_nil],
          rfl, rfl, rfl, hok, hfl, fun h2f => absurd hfz h2f⟩
      · unfold refill
        rw [if_neg hfz]
        dsimp only
        set M := min (r.payload.length - r.alreadyPut) (freeBytes s) with hMdef
        set d := (r.payload.drop r.alreadyPut).take M with hddef
        set s1 := put s d with hs1def
        have hMput : M ≤ r.payload.length - r.alreadyPut := by
          rw [hMdef]
          exact Nat.min_le_left _ _
        have hMfree : M ≤ freeBytes s := by
          rw [hMdef]
          exact Nat.min_le_right _ _
        have hsegl : d.length = M := by
          rw [hddef, List.length_take, List.length_drop]
          omega
        have hdle : d.length ≤ freeBytes s := by omega
        obtain ⟨hp1, hp2, hp3, hp4, hp5⟩ := put_sim hInv hdle
        rw [← hs1def] at hp1 hp2 hp3 hp4 hp5
        have hfree1 : freeBytes s1 = freeBytes s - M := by
          rw [hs1def, freeBytes_put hInv hdle, hsegl]
        obtain ⟨X, ha1, ha2, ha3, ha4, ha5, ha6, ha7, ha8, ha9, ha10, ha11⟩ :=
          ih s1 hp1 (fun a ha => hok a (List.mem_cons_of_mem r ha)) hfrest
        have hgr1 : ringSeg { r with alreadyPut := r.alreadyPut + M }
            = ringSeg r ++ d := by
          unfold ringSeg
          dsimp only
          rw [hddef, List.take_add, List.drop_append_of_le_length
            (by rw [List.length_take]; omega)]
        refine ⟨d ++ X, ha1, by rw [ha2, hp4],
          by rw [ha3, hp5], ?_, ?_, ?_, ?_, ?_, ?_, ?_, ?_⟩
        · rw [ha4, hp2, List.append_assoc]
        · simp only [List.map_cons, List.flatten_cons]
          rw [ha5, hgr1]
          by_cases hto : M = 0
          · rw [hto] at hsegl
            have hdnil : d = [] := List.length_eq_zero.mp hsegl
            rw [hdnil]
            simp
          · have hplt : r.alreadyPut < r.payload.length := by
              rcases Nat.le_total (r.payload.length - r.alreadyPut)
                (freeBytes s) with hx | hx
              · rw [hMdef, Nat.min_eq_left hx] at hto
                omega
              · rw [hMdef, Nat.min_eq_right hx] at hto
                omega
            have hnil : ((rest.map ringSeg).flatten) = [] :=
              flatten_ringSeg_nil
                (fun a ha => hok a (List.mem_cons_of_mem r ha))
                (fun b hb => hfr b hb hplt)
            rw [hnil]
            simp only [List.nil_append, List.append_nil, List.append_assoc]
        · simp only [List.map_cons]
          rw [ha6]
        · simp only [List.map_cons]
          rw [ha7]
          rfl
        · simp only [List.map_cons]
          rw [ha8]
        · intro a ha
          rcases List.mem_cons.mp ha with he | hm
          · subst he
            exact ⟨by dsimp only; omega, by dsimp only; omega,
              by dsimp only; omega⟩
          · exact ha9 a hm
        · apply List.pairwise_cons.mpr
          refine ⟨?_, ha10⟩
          intro b hb hlt
          have hlt2 : r.alreadyPut + M < r.payload.length := hlt
          have hmin : M = freeBytes s := by
            rcases Nat.le_total (r.payload.length - r.alreadyPut)
              (freeBytes s) with hx | hx
            · rw [hMdef, Nat.min_eq_left hx] at hlt2 ⊢
              omega
            · rw [hMdef]
              exact Nat.min_eq_right hx
          have hfz1 : freeBytes s1 = 0 := by
            rw [hfree1, hmin]
            omega
          have hrfl : refill s1 rest = (s1, rest) := by
            cases rest with
            | nil => rfl
            | cons b2 rest2 =>
                unfold refill
                rw [if_pos hfz1]
          rw [hrfl] at hb
          have hplt : r.alreadyPut < r.payload.length := by omega
          exact hfr b hb hplt
        · intro hfR a ha
          have eR : freeBytes (refill s1 rest).1
              = (refill s1 rest).1.size
                - occupiedBytes (refill s1 rest).1 := rfl
          have eS : freeBytes s1 = s1.size - occupiedBytes s1 := rfl
          have hl1 := contents_length (invM_invW ha1)
          rw [ha4, List.length_append, contents_length (invM_invW hp1)] at hl1
          have hfree2 : freeBytes s1 ≠ 0 := by omega
          rcases List.mem_cons.mp ha with he | hm
          · subst he
            have hmin : M = r.payload.length - r.alreadyPut := by
              rcases Nat.le_total (r.payload.length - r.alreadyPut)
                (freeBytes s) with hx | hx
              · rw [hMdef]
                exact Nat.min_eq_left hx
              · have hmr : M = freeBytes s := by
                  rw [hMdef]
                  exact Nat.min_eq_right hx
                rw [hfree1, hmr] at hfree2
                omega
            show r.alreadyPut + M = r.payload.length
            omega
          · exact ha11 hfR a hm

/-- The reachable-state invariant of the async write machine: the ring
holds exactly the placed-but-unsent payload segments in queue order, the
queue is placed front first and only its front is partially sent, the
fired events followed by the pending queue list the submitted requests in
submission order, the sink output followed by the unsent residues equals
the submitted payloads, ids are issued consecutively, and any outstanding
offer is a contiguous prefix of the ring contents. -/
structure AWInv (w : AWState) : Prop where
  hring : InvM w.ring
  hcont : contents w.ring = (w.queue.map ringSeg).flatten
  hok : ∀ r ∈ w.queue, ReqOk r
  hfl : FrontLoaded w.queue
  hfree : freeBytes w.ring ≠ 0 → ∀ r ∈ w.queue, r.alreadyPut = r.payload.length
  hts : ∀ r ∈ w.queue.drop 1, r.alreadySent = 0
  hids : w.events.map Prod.fst ++ w.queue.map PendReq.id
    = w.submitted.map Prod.fst
  hbytes : w.sinkOut ++ (w.queue.map residue).flatten
    = (w.submitted.map Prod.snd).flatten
  hrange : w.submitted.map Prod.fst = List.range w.nextId
  hout : ∀ seg, w.outstanding = some seg →
    seg.length ≤ occupiedBytes w.ring ∧
    seg.length ≤ w.ring.size - w.ring.tail ∧
    seg = (contents w.ring).take seg.length
  hnone : w.outstanding = none → w.queue = []
  hloop : w.writeLoopOn = w.outstanding.isSome

theorem initAW_inv {n : Nat} (hn : 1 ≤ n) : AWInv (initAW n) := by
  refine ⟨initState_invM hn, ?_, ?_, List.Pairwise.nil, ?_, ?_, rfl, rfl,
    rfl, ?_, fun h => rfl, rfl⟩
  · show contents (initState n) = (List.map ringSeg ([] : List PendReq)).flatten
    rw [contents_nil (occupiedBytes_initState n)]
    rfl
  · intro r hr
    exact absurd hr (List.not_mem_nil r)
  · intro h r hr
    exact absurd hr (List.not_mem_nil r)
  · intro r hr
    exact absurd hr (List.not_mem_nil r)
  · intro seg hseg
    exact Option.noConfusion hseg

theorem ts_append {q : List PendReq} {e : PendReq}
    (hq : ∀ r ∈ q.drop 1, r.alreadySent = 0) (he : e.alreadySent = 0) :
    ∀ r ∈ (q ++ [e]).drop 1, r.alreadySent = 0 := by
  intro r hr
  cases q with
  | nil =>
      simp only [List.nil_append] at hr
      have : ([e].drop 1 : List PendReq) = [] := rfl
      rw [this] at hr
      exact absurd hr (List.not_mem_nil r)
  | cons f fr =>
      have : ((f :: fr) ++ [e]).drop 1 = fr ++ [e] := rfl
      rw [this] at hr
      rcases List.mem_append.mp hr with hm | hm
      · exact hq r hm
      · rw [List.mem_singleton] at hm
        subst hm
        exact he

theorem awWrite_inv {w : AWState} {p : List Nat} (h : AWInv w)
    (hp : p.length ≠ 0) : AWInv (awWrite w p) := by
  obtain ⟨hring, hcont, hok, hfl, hfree, hts, hids, hbytes, hrange, hout,
    hnone, hloop⟩ := h
  unfold awWrite
  rw [if_neg hp]
  dsimp only
  set M := min p.length (freeBytes w.ring) with hMdef
  have hMp : M ≤ p.length := by
    rw [hMdef]
    exact Nat.min_le_left _ _
  have hMf : M ≤ freeBytes w.ring := by
    rw [hMdef]
    exact Nat.min_le_right _ _
  have hdl : (p.take M).length = M := by
    rw [List.length_take]
    omega
  have hdle : (p.take M).length ≤ freeBytes w.ring := by omega
  obtain ⟨hp1, hp2, hp3, hp4, hp5⟩ := put_sim hring hdle
  have hfree1 : freeBytes (put w.ring (p.take M)) = freeBytes w.ring - M := by
    rw [freeBytes_put hring hdle, hdl]
  have hnew : ∀ r2 ∈ w.queue ++ [(⟨p, M, 0, w.nextId⟩ : PendReq)],
      ReqOk r2 := by
    intro r2 hr2
    rcases List.mem_append.mp hr2 with hm | he
    · exact hok r2 hm
    · rw [List.mem_singleton] at he
      subst he
      exact ⟨Nat.zero_le M, hMp, by show 0 < p.length; omega⟩
  have hnfl : FrontLoaded (w.queue ++ [(⟨p, M, 0, w.nextId⟩ : PendReq)]) := by
    apply List.pairwise_append.mpr
    refine ⟨hfl, by simp [FrontLoaded], ?_⟩
    intro a ha b hb hlt
    rw [List.mem_singleton] at hb
    subst hb
    show M = 0
    by_contra hM0
    have hfz : freeBytes w.ring ≠ 0 := by omega
    have := hfree hfz a ha
    omega
  have hnfree : freeBytes (put w.ring (p.take M)) ≠ 0 →
      ∀ r2 ∈ w.queue ++ [(⟨p, M, 0, w.nextId⟩ : PendReq)],
        r2.alreadyPut = r2.payload.length := by
    intro hfz r2 hr2
    have hf0 : freeBytes w.ring ≠ 0 := by
      rw [hfree1] at hfz
      omega
    rcases List.mem_append.mp hr2 with hm | he
    · exact hfree hf0 r2 hm
    · rw [List.mem_singleton] at he
      subst he
      show M = p.length
      rw [hfree1] at hfz
      rw [hMdef] at *
      rcases Nat.le_total p.length (freeBytes w.ring) with hx | hx
      · rw [Nat.min_eq_left hx]
      · rw [Nat.min_eq_right hx] at hfz ⊢
        omega
  have hncont : contents (put w.ring (p.take M))
      = ((w.queue ++ [(⟨p, M, 0, w.nextId⟩ : PendReq)]).map ringSeg).flatten := by
    rw [hp2, hcont, List.map_append, List.flatten_append]
    have hrs : ((([(⟨p, M, 0, w.nextId⟩ : PendReq)]).map ringSeg).flatten)
        = p.take M := by
      show ringSeg (⟨p, M, 0, w.nextId⟩ : PendReq) ++ [] = p.take M
      rw [List.append_nil]
      rfl
    rw [hrs]
  have hnts : ∀ r2 ∈ (w.queue ++ [(⟨p, M, 0, w.nextId⟩ : PendReq)]).drop 1,
      r2.alreadySent = 0 := ts_append hts rfl
  have hnids : w.events.map Prod.fst
      ++ (w.queue ++ [(⟨p, M, 0, w.nextId⟩ : PendReq)]).map PendReq.id
      = (w.submitted ++ [(w.nextId, p)]).map Prod.fst := by
    rw [List.map_append, List.map_append, ← List.append_assoc, hids]
    simp
  have hnbytes : w.sinkOut
      ++ ((w.queue ++ [(⟨p, M, 0, w.nextId⟩ : PendReq)]).map residue).flatten
      = ((w.submitted ++ [(w.nextId, p)]).map Prod.snd).flatten := by
    rw [List.map_append, List.flatten_append, List.map_append,
      List.flatten_append, ← List.append_assoc, hbytes]
    have hres : ((([(⟨p, M, 0, w.nextId⟩ : PendReq)]).map residue).flatten)
        = p := by
      show residue (⟨p, M, 0, w.nextId⟩ : PendReq) ++ [] = p
      rw [List.append_nil]
      rfl
    rw [hres]
    simp
  have hnrange : (w.submitted ++ [(w.nextId, p)]).map Prod.fst
      = List.range (w.nextId + 1) := by
    rw [List.map_append, hrange, List.range_succ]
    rfl
  by_cases hl : w.writeLoopOn
  · rw [if_pos hl]
    have houtT : ∀ seg, w.outstanding = some seg →
        seg.length ≤ occupiedBytes (put w.ring (p.take M)) ∧
        seg.length ≤ (put w.ring (p.take M)).size
          - (put w.ring (p.take M)).tail ∧
        seg = (contents (put w.ring (p.take M))).take seg.length := by
      intro seg hseg
      obtain ⟨ho1, ho2, ho3⟩ := hout seg hseg
      refine ⟨by omega, by rw [hp4, hp5]; exact ho2, ?_⟩
      rw [hp2, List.take_append_eq_append_take,
        show seg.length - (contents w.ring).length = 0 from by
          rw [contents_length (invM_invW hring)]
          omega,
        List.take_zero, List.append_nil]
      exact ho3
    have hnoneT : w.outstanding = none → w.queue ++ [(⟨p, M, 0, w.nextId⟩ : PendReq)] = [] := by
      intro hno
      exfalso
      rw [hloop, hno] at hl
      exact Bool.noConfusion hl
    exact ⟨hp1, hncont, hnew, hnfl, hnfree, hnts, hnids, hnbytes, hnrange,
      houtT, hnoneT, hloop⟩
  · rw [if_neg hl]
    have houtF : ∀ seg, some (issuePush (put w.ring (p.take M))) = some seg →
        seg.length ≤ occupiedBytes (put w.ring (p.take M)) ∧
        seg.length ≤ (put w.ring (p.take M)).size
          - (put w.ring (p.take M)).tail ∧
        seg = (contents (put w.ring (p.take M))).take seg.length := by
      intro seg hseg
      rw [Option.some.injEq] at hseg
      obtain ⟨hi1, hi2⟩ := issuePush_spec hp1
      subst hseg
      refine ⟨by rw [hi1]; exact Nat.min_le_left _ _, ?_, hi2⟩
      rw [hi1, hp4, hp5]
      exact Nat.min_le_right _ _
    exact ⟨hp1, hncont, hnew, hnfl, hnfree, hnts, hnids, hnbytes, hnrange,
      houtF, fun hcontra => Option.noConfusion hcontra, rfl⟩

theorem awComplete_inv {w : AWState} {k : Nat} {seg : List Nat} (h : AWInv w)
    (hseg : w.outstanding = some seg) (hk : k ≠ 0) (hkle : k ≤ seg.length) :
    AWInv (awComplete w k) := by
  obtain ⟨hring, hcont, hok, hfl, hfree, hts, hids, hbytes, hrange, hout,
    hnone, hloop⟩ := h
  obtain ⟨ho1, ho2, ho3⟩ := hout seg hseg
  have hko : k ≤ occupiedBytes w.ring := by omega
  have hkt : k ≤ w.ring.size - w.ring.tail := by omega
  have hflu : flushAdvW w.ring k = copyState w.ring k :=
    flushAdvW_eq_copyState hk hkt
  obtain ⟨hc1, hc2, hc3, hc4, hc5⟩ := copyState_sim hring hko
  have hsegk : seg.take k = (contents w.ring).take k := by
    rw [ho3, List.take_take, Nat.min_eq_left hkle]
  have hkflat : k ≤ ((w.queue.map ringSeg).flatten).length := by
    rw [← hcont, contents_length (invM_invW hring)]
    omega
  obtain ⟨cr1, cr2, cr3, cr4, cr5, cr6⟩ :=
    creditBytes_spec w.queue k hok hfl hts hkflat
  have hr1 : InvM (flushAdvW w.ring k) := by
    rw [hflu]
    exact hc2
  have hcs1 : contents (flushAdvW w.ring k)
      = (((creditBytes k w.queue).2.map ringSeg)).flatten := by
    rw [hflu, hc1, hcont, ← cr2]
  have htakek : seg.take k = ((w.queue.map residue).flatten).take k := by
    rw [hsegk, hcont]
    exact (flatten_prefix_take hok hfl k hkflat).symm
  have hbytes2 : w.sinkOut ++ seg.take k
      ++ (((creditBytes k w.queue).2.map residue)).flatten
      = (w.submitted.map Prod.snd).flatten := by
    rw [htakek, cr3, List.append_assoc, List.take_append_drop]
    exact hbytes
  unfold awComplete
  rw [hseg]
  dsimp only
  rw [if_neg hk]
  by_cases hemp : ((creditBytes k w.queue).2.isEmpty : Bool) = true
  · rw [if_pos hemp]
    have hqnil : (creditBytes k w.queue).2 = [] := List.isEmpty_iff.mp hemp
    have hcnil : contents (flushAdvW w.ring k)
        = (List.map ringSeg ([] : List PendReq)).flatten := by
      rw [hcs1, hqnil]
    have hids2 : (w.events ++ (creditBytes k w.queue).1).map Prod.fst
        ++ (List.map PendReq.id ([] : List PendReq))
        = w.submitted.map Prod.fst := by
      rw [List.map_append, List.map_nil, List.append_nil]
      rw [hqnil] at cr1
      rw [List.map_nil, List.append_nil] at cr1
      rw [cr1]
      exact hids
    have hbytes3 : (w.sinkOut ++ seg.take k)
        ++ ((List.map residue ([] : List PendReq)).flatten)
        = (w.submitted.map Prod.snd).flatten := by
      rw [List.map_nil, List.flatten_nil, List.append_nil]
      rw [hqnil] at hbytes2
      rw [List.map_nil, List.flatten_nil, List.append_nil] at hbytes2
      exact hbytes2
    exact ⟨hr1, hcnil, fun r hr => absurd hr (List.not_mem_nil r),
      List.Pairwise.nil,
      fun hf r hr => absurd hr (List.not_mem_nil r),
      fun r hr => absurd hr (List.not_mem_nil r),
      hids2, hbytes3, hrange,
      fun s2 hs2 => Option.noConfusion hs2,
      fun hn => rfl, rfl⟩
  · rw [if_neg hemp]
    obtain ⟨X, rf1, rf2, rf3, rf4, rf5, rf6, rf7, rf8, rf9, rf10, rf11⟩ :=
      refill_spec (creditBytes k w.queue).2 (flushAdvW w.ring k) hr1 cr4 cr5
    have hcont2 : contents (refill (flushAdvW w.ring k)
        (creditBytes k w.queue).2).1
        = (((refill (flushAdvW w.ring k)
          (creditBytes k w.queue).2).2.map ringSeg)).flatten := by
      rw [rf4, rf5, hcs1]
    have hts2 : ∀ r ∈ (refill (flushAdvW w.ring k)
        (creditBytes k w.queue).2).2.drop 1, r.alreadySent = 0 := by
      intro r hr
      have hmm2 : r.alreadySent ∈ ((refill (flushAdvW w.ring k)
          (creditBytes k w.queue).2).2.drop 1).map
          (fun r => r.alreadySent) := List.mem_map_of_mem _ hr
      rw [List.map_drop, rf8, ← List.map_drop] at hmm2
      rw [List.mem_map] at hmm2
      obtain ⟨r2, hr2, he⟩ := hmm2
      rw [← he]
      exact cr6 r2 hr2
    have hids2 : (w.events ++ (creditBytes k w.queue).1).map Prod.fst
        ++ (refill (flushAdvW w.ring k)
          (creditBytes k w.queue).2).2.map PendReq.id
        = w.submitted.map Prod.fst := by
      rw [List.map_append, rf6, List.append_assoc, cr1]
      exact hids
    have hbytes3 : (w.sinkOut ++ seg.take k)
        ++ (((refill (flushAdvW w.ring k)
          (creditBytes k w.queue).2).2.map residue).flatten)
        = (w.submitted.map Prod.snd).flatten := by
      rw [rf7, List.append_assoc]
      rw [← List.append_assoc]
      exact hbytes2
    have houtN : ∀ s2, some (issuePush (refill (flushAdvW w.ring k)
        (creditBytes k w.queue).2).1) = some s2 →
        s2.length ≤ occupiedBytes (refill (flushAdvW w.ring k)
          (creditBytes k w.queue).2).1 ∧
        s2.length ≤ (refill (flushAdvW w.ring k)
            (creditBytes k w.queue).2).1.size
          - (refill (flushAdvW w.ring k) (creditBytes k w.queue).2).1.tail ∧
        s2 = (contents (refill (flushAdvW w.ring k)
          (creditBytes k w.queue).2).1).take s2.length := by
      intro s2 hs2
      rw [Option.some.injEq] at hs2
      obtain ⟨hi1, hi2⟩ := issuePush_spec rf1
      subst hs2
      refine ⟨by rw [hi1]; exact Nat.min_le_left _ _, ?_, hi2⟩
      rw [hi1]
      exact Nat.min_le_right _ _
    have hlp : w.writeLoopOn
        = (some (issuePush (refill (flushAdvW w.ring k)
          (creditBytes k w.queue).2).1)).isSome := by
      rw [hloop, hseg]
      rfl
    exact ⟨rf1, hcont2, rf9, rf10, rf11, hts2, hids2, hbytes3, hrange,
      houtN, fun hcontra => Option.noConfusion hcontra, hlp⟩

theorem runAW_inv : ∀ (acts : List AWAct) (w : AWState), AWInv w →
    validActs w acts = true → actsLive acts = true → AWInv (runAW w acts) := by
  intro acts
  induction acts with
  | nil =>
      intro w h hv hl
      exact h
  | cons a rest ih =>
      intro w h hv hl
      cases a with
      | submit p =>
          have hv2 : validActs (awWrite w p) rest = true := hv
          have hl2 : (decide (p.length ≠ 0) && actsLive rest) = true := hl
          rw [Bool.and_eq_true] at hl2
          obtain ⟨hp0, hlrest⟩ := hl2
          have hp1 : p.length ≠ 0 := of_decide_eq_true hp0
          exact ih (awWrite w p) (awWrite_inv h hp1) hv2 hlrest
      | complete k =>
          have hv2 : ((match w.outstanding with
              | some seg => decide (k ≤ seg.length)
              | none => false)
            && validActs (awComplete w k) rest) = true := hv
          rw [Bool.and_eq_true] at hv2
          obtain ⟨hc, hvrest⟩ := hv2
          have hl2 : (decide (k ≠ 0) && actsLive rest) = true := hl
          rw [Bool.and_eq_true] at hl2
          obtain ⟨hk0, hlrest⟩ := hl2
          have hk1 : k ≠ 0 := of_decide_eq_true hk0
          cases ho : w.outstanding with
          | none =>
              rw [ho] at hc
              simp at hc
          | some seg =>
              rw [ho] at hc
              have hkle : k ≤ seg.length := of_decide_eq_true hc
              exact ih (awComplete w k) (awComplete_inv h ho hk1 hkle)
                hvrest hlrest

/-- C8: over every valid schedule of nonzero-length submissions and
nonzero sink completions against the async write engine, the submitted
requests carry consecutive ids in submission order, the completion
handlers that have fired (in firing order) followed by the still-pending
requests list exactly the submitted requests in submission order — so
handlers fire exactly once and strictly in submission (FIFO) order,
however the sink partitions the bytes — and once the pending queue has
drained, the bytes delivered to the sink are exactly the concatenation of
the submitted payloads in submission order. -/
theorem c8_async_write_fifo (n : Nat) (acts : List AWAct) (hn : 1 ≤ n)
    (hv : validActs (initAW n) acts = true) (hl : actsLive acts = true) :
    (runAW (initAW n) acts).submitted.map Prod.fst
      = List.range (runAW (initAW n) acts).nextId ∧
    (runAW (initAW n) acts).events.map Prod.fst
        ++ (runAW (initAW n) acts).queue.map PendReq.id
      = (runAW (initAW n) acts).submitted.map Prod.fst ∧
    ((runAW (initAW n) acts).queue = [] →
      (runAW (initAW n) acts).sinkOut
        = ((runAW (initAW n) acts).submitted.map Prod.snd).flatten) := by
  have inv := runAW_inv acts (initAW n) (initAW_inv hn) hv hl
  refine ⟨inv.hrange, inv.hids, ?_⟩
  intro hq
  have hby := inv.hbytes
  rw [hq] at hby
  simpa using hby

theorem c8_counterexample :
    (runAW (initAW 1) [AWAct.submit [5, 6], AWAct.submit [], AWAct.complete 1,
      AWAct.complete 1]).submitted.map Prod.fst = [0, 1] ∧
    (runAW (initAW 1) [AWAct.submit [5, 6], AWAct.submit [], AWAct.complete 1,
      AWAct.complete 1]).events.map Prod.fst = [1, 0] ∧
    (runAW (initAW 1) [AWAct.submit [5, 6], AWAct.submit [], AWAct.complete 1,
      AWAct.complete 1]).events = [(1, 0), (0, 2)] ∧
    validActs (initAW 1) [AWAct.submit [5, 6], AWAct.submit [],
      AWAct.complete 1, AWAct.complete 1] = true := by
  decide

theorem c8_witness :
    validActs (initAW 1) [AWAct.submit [7, 8], AWAct.complete 1, AWAct.complete 1] = true ∧
    actsLive [AWAct.submit [7, 8], AWAct.complete 1, AWAct.complete 1] = true ∧
    (runAW (initAW 1) [AWAct.submit [7, 8], AWAct.complete 1, AWAct.complete 1]).queue = [] ∧
    (runAW (initAW 1) [AWAct.submit [7, 8], AWAct.complete 1, AWAct.complete 1]).sinkOut
      = ((runAW (initAW 1) [AWAct.submit [7, 8], AWAct.complete 1, AWAct.complete 1]).submitted.map Prod.snd).flatten ∧
    (runAW (initAW 1) [AWAct.submit [7, 8], AWAct.complete 1, AWAct.complete 1]).events.map Prod.fst
        ++ (runAW (initAW 1) [AWAct.submit [7, 8], AWAct.complete 1, AWAct.complete 1]).queue.map PendReq.id
      = (runAW (initAW 1) [AWAct.submit [7, 8], AWAct.complete 1, AWAct.complete 1]).submitted.map Prod.fst :=
  ⟨by decide, by decide, by decide,
   (c8_async_write_fifo 1 [AWAct.submit [7, 8], AWAct.complete 1, AWAct.complete 1] (by decide) (by decide) (by decide)).2.2
     (by decide),
   (c8_async_write_fifo 1 [AWAct.submit [7, 8], AWAct.complete 1, AWAct.complete 1] (by decide) (by decide) (by decide)).2.1⟩

/-- C10: a zero-length write on the async write engine invokes the
completion handler synchronously, exactly once, with the value 0, and does
nothing else: no pending request is enqueued, no ioPush is issued, and
the ring, the sink stream and the write-loop flag are all untouched. -/
theorem c10_zero_length_write (w : AWState) :
    (awWrite w []).events = w.events ++ [(w.nextId, 0)] ∧
    (awWrite w []).ring = w.ring ∧
    (awWrite w []).queue = w.queue ∧
    (awWrite w []).outstanding = w.outstanding ∧
    (awWrite w []).writeLoopOn = w.writeLoopOn ∧
    (awWrite w []).sinkOut = w.sinkOut ∧
    (awWrite w []).nextId = w.nextId + 1 := by
  refine ⟨?_, ?_, ?_, ?_, ?_, ?_, ?_⟩ <;> rfl

end BufIoSpec
